import Mathlib

/-!
# Column-major dense matrix and its multiplication routines

A shallow embedding of `hw3/yenchanglu/_matrix.cpp`: the `Matrix` class
(`index`, `operator()`, `operator==`, `reset_buffer`, the constructor) and the
free functions `multiply_naive`, `multiply_tile` and `multiply_mkl`.

Modelling conventions.

* The products that the source forms in `size_t` (`nrow * ncol` in
  `reset_buffer` and `size`, `row + col * nrow` in `index`) are taken modulo
  `SIZE_MOD = 2^64`: a matrix whose dimensions have a product of `2^64` or more
  gets a buffer that is too short, or none.
* Loop counters are natural numbers.  For operands whose dimensions do not
  exceed `2^63` no counter of the loops below wraps: a counter `i` that starts
  at `0` and is incremented by `tile_size` while `i < bound` is `0` or at least
  `tile_size`, so `i + tile_size` is `tile_size` or at most `2 * i < 2 * bound`.
* In `Matrix`, `double` entries are integers: the arithmetic on the entries is
  exact, as the claims about products say.  Where a cell that is not a number
  matters (`operator==` on arbitrary contents, the copy constructor), cells
  are `Double`, a number or NaN.
* The buffer is a list; a read outside the buffer (undefined behaviour in the
  source) yields `0`, a write outside the buffer is dropped.  `Matrix.WF`
  says that the buffer holds all the cells the dimensions promise.
* `new double[n]` yields indeterminate contents: the contents of fresh memory
  are a parameter `junk` of every function that allocates.
* A `for` loop with a unit increment and a fixed bound is `forUp`; a `for`
  loop that advances its counter by `tile_size` is `forStep`, which carries a
  fuel argument bounding the number of iterations of each loop, and returns
  `none` when the loop has not finished within that many iterations.  With
  `tile_size == 0` a loop that is entered does not advance and has no side
  effect: the behaviour of the source is then undefined, the model gives
  `none`, and no theorem says whether such a run returns.
* Whether two objects share storage is a question about pointers: for the
  copy constructor and for `operator==` on arbitrary contents the object is a
  `MatrixPtr`, whose `m_buffer` is an address in a free store (`Heap`).
* The functions with the suffix `_checked` are `multiply_tile` with every use
  of `operator()` replaced by an accessor that tests the bounds first.
-/

namespace Hw3

/-- The number of values of `size_t` (64 bits): arithmetic on `size_t` is
arithmetic modulo `SIZE_MOD`. -/
abbrev SIZE_MOD : Nat := 18446744073709551616

/-! ## Loops -/

/-- Iterations of `for (size_t i = lo; ...; ++i) s = body i s`, `n` of them. -/
def forUpAux {σ : Type} (body : Nat → σ → σ) : Nat → Nat → σ → σ
  | 0, _, s => s
  | n + 1, i, s => forUpAux body n (i + 1) (body i s)

/-- The loop `for (size_t i = lo; i < hi; ++i) s = body i s`. -/
def forUp {σ : Type} (lo hi : Nat) (body : Nat → σ → σ) (s : σ) : σ :=
  forUpAux body (hi - lo) lo s

/-- The loop `for (size_t i = start; i < bound; i += step) s = body i s`, whose
body may itself fail to finish.  At most `fuel` tests of the loop condition are
made; `none` means that the loop is still running after that. -/
def forStep {σ : Type} (fuel : Nat) (i bound step : Nat) (body : Nat → σ → Option σ)
    (s : σ) : Option σ :=
  match fuel with
  | 0 => none
  | fuel + 1 =>
    if i < bound then
      match body i s with
      | none => none
      | some s' => forStep fuel (i + step) bound step body s'
    else some s

/-! ## The Matrix class -/

/-- The exception type thrown by `multiply_tile`. -/
inductive Exception where
  | out_of_range (what : String)
deriving DecidableEq

deriving instance DecidableEq for Except

/-- The data members of `class Matrix`. -/
structure Matrix where
  m_nrow : Nat
  m_ncol : Nat
  m_buffer : List Int
deriving DecidableEq

namespace Matrix

/-- Member `size_t nrow() const`. -/
def nrow (self : Matrix) : Nat := self.m_nrow

/-- Member `size_t ncol() const`. -/
def ncol (self : Matrix) : Nat := self.m_ncol

/-- Member `size_t size() const`. -/
def size (self : Matrix) : Nat := (self.m_nrow * self.m_ncol) % SIZE_MOD

/-- Member `double *data() const`: the backing buffer. -/
def data (self : Matrix) : List Int := self.m_buffer

/-- Member `size_t index(size_t row, size_t col) const`. -/
def index (self : Matrix) (row col : Nat) : Nat := (row + col * self.m_nrow) % SIZE_MOD

/-- Member `double operator() (size_t row, size_t col) const`. -/
def read (self : Matrix) (row col : Nat) : Int :=
  self.m_buffer.getD (self.index row col) 0

/-- Member `double & operator() (size_t row, size_t col)` used as the target of
an assignment: `self(row, col) = v`. -/
def write (self : Matrix) (row col : Nat) (v : Int) : Matrix :=
  { self with m_buffer := self.m_buffer.set (self.index row col) v }

/-- Member `void reset_buffer(size_t nrow, size_t ncol)`: the old buffer is
released and a fresh one of `nelement` cells (contents `junk`) is taken,
`nelement` being the product `nrow * ncol` in `size_t`; no buffer when
`nelement` is zero. -/
def reset_buffer (junk : Nat → Int) (_self : Matrix) (nrow ncol : Nat) : Matrix :=
  let nelement := (nrow * ncol) % SIZE_MOD
  { m_nrow := nrow
    m_ncol := ncol
    m_buffer := if nelement ≠ 0 then (List.range nelement).map junk else [] }

/-- Constructor `Matrix(size_t nrow, size_t ncol)`. -/
def new (junk : Nat → Int) (nrow ncol : Nat) : Matrix :=
  reset_buffer junk { m_nrow := nrow, m_ncol := ncol, m_buffer := [] } nrow ncol

/-- Member `bool operator==(Matrix const &other)` on exact entries; `same` is
the outcome of the identity test `this == &other`, which is `false` when a
freshly returned object is compared with an operand.  Cells that are not
numbers are covered by `MatrixPtr.operator_eq`. -/
def operator_eq (self other : Matrix) (same : Bool) : Bool :=
  if same then true
  else if self.m_nrow ≠ other.m_nrow ∨ self.m_ncol ≠ other.m_ncol then false
  else
    (List.range self.m_nrow).all fun i =>
      (List.range self.m_ncol).all fun j =>
        !(self.read i j != other.read i j)

/-- The class invariant: the buffer holds `m_nrow * m_ncol` cells, which are
fewer than `SIZE_MOD` (an array has fewer cells than there are addresses). -/
def WF (self : Matrix) : Prop :=
  self.m_buffer.length = self.m_nrow * self.m_ncol ∧ self.m_nrow * self.m_ncol < SIZE_MOD

instance (self : Matrix) : Decidable self.WF := by
  unfold WF; infer_instance

/-- Member `double buffer(size_t i) const`. -/
def buffer (self : Matrix) (i : Nat) : Int := self.m_buffer.getD i 0

/-- Member `std::vector<double> buffer_vector() const`: the range constructor
copies the cells at `m_buffer`, ..., `m_buffer + size() - 1`, in this order. -/
def buffer_vector (self : Matrix) : List Int :=
  (List.range self.size).map fun i => self.m_buffer.getD i 0

end Matrix

/-! ## multiply_naive -/

/-- Function `Matrix multiply_naive(Matrix const &mat1, Matrix const &mat2)`. -/
def multiply_naive (junk : Nat → Int) (mat1 mat2 : Matrix) : Matrix :=
  let ret := Matrix.new junk mat1.nrow mat2.ncol
  forUp 0 ret.nrow (fun i ret =>
    forUp 0 ret.ncol (fun k ret =>
      let v := forUp 0 mat1.ncol (fun j v => v + mat1.read i j * mat2.read j k) 0
      ret.write i k v) ret) ret

/-! ## multiply_tile -/

/-- The three innermost loops of `multiply_tile` (source lines 117-125): the
block with rows `[i, index_i)`, columns `[k, index_k)` and contraction indices
`[j, index_j)` is accumulated into `ret`. -/
def tile_block (mat1 mat2 : Matrix) (i index_i k index_k j index_j : Nat)
    (ret : Matrix) : Matrix :=
  forUp i index_i (fun tile_i ret =>
    forUp k index_k (fun tile_k ret =>
      let v := forUp j index_j
        (fun tile_j v => v + mat1.read tile_i tile_j * mat2.read tile_j tile_k) 0
      ret.write tile_i tile_k (ret.read tile_i tile_k + v)) ret) ret

/-- The block loops of `multiply_tile` (source lines 110-128). -/
def tile_loops (fuel : Nat) (mat1 mat2 : Matrix) (tile_size : Nat) (ret : Matrix) :
    Option Matrix :=
  forStep fuel 0 mat1.nrow tile_size (fun i ret =>
    let index_i := if i + tile_size < mat1.nrow then i + tile_size else mat1.nrow
    forStep fuel 0 mat2.ncol tile_size (fun k ret =>
      let index_k := if k + tile_size < mat2.ncol then k + tile_size else mat2.ncol
      forStep fuel 0 mat1.nrow tile_size (fun j ret =>
        let index_j := if j + tile_size < mat1.ncol then j + tile_size else mat1.ncol
        some (tile_block mat1 mat2 i index_i k index_k j index_j ret)) ret) ret) ret

/-- Function `Matrix multiply_tile(Matrix const &mat1, Matrix const &mat2,
size_t tile_size)`.  The result is `none` when some loop is still running after
`fuel` iterations, `some (.error e)` when `e` is thrown, and `some (.ok ret)`
when `ret` is returned.  For `tile_size == 0` and a loop that is entered the
source has undefined behaviour (a loop without side effects that does not
advance); `none` stands for it. -/
def multiply_tile (fuel : Nat) (junk : Nat → Int) (mat1 mat2 : Matrix) (tile_size : Nat) :
    Option (Except Exception Matrix) :=
  if mat1.ncol ≠ mat2.nrow then
    some (.error (.out_of_range "Incorrect dimensions for matrix multiplication"))
  else
    let ret := Matrix.new junk mat1.nrow mat2.ncol
    let ret := forUp 0 mat1.nrow (fun i ret =>
      forUp 0 mat2.ncol (fun j ret => ret.write i j 0) ret) ret
    match tile_loops fuel mat1 mat2 tile_size ret with
    | none => none
    | some ret => some (.ok ret)

/-! ## multiply_mkl -/

/-- Modelled from the spec: the storage order argument of the external routine
`cblas_dgemm` (type `CBLAS_LAYOUT` of `mkl.h`). -/
inductive CBLAS_LAYOUT where
  | CblasRowMajor
  | CblasColMajor
deriving DecidableEq

/-- Modelled from the spec: the transposition argument of the external routine
`cblas_dgemm` (type `CBLAS_TRANSPOSE` of `mkl.h`). -/
inductive CBLAS_TRANSPOSE where
  | CblasNoTrans
  | CblasTrans
deriving DecidableEq

/-- Modelled from the spec: element `(r, c)` of an operand of `cblas_dgemm`
stored with leading dimension `ld`. -/
def blas_elem (layout : CBLAS_LAYOUT) (X : List Int) (ld r c : Nat) : Int :=
  match layout with
  | .CblasRowMajor => X.getD (r * ld + c) 0
  | .CblasColMajor => X.getD (r + c * ld) 0

/-- Modelled from the spec: offset of element `(r, c)` of an operand of
`cblas_dgemm` stored with leading dimension `ld`. -/
def blas_offset (layout : CBLAS_LAYOUT) (ld r c : Nat) : Nat :=
  match layout with
  | .CblasRowMajor => r * ld + c
  | .CblasColMajor => r + c * ld

/-- Modelled from the spec: element `(r, c)` of `op(X)` in `cblas_dgemm`. -/
def blas_op (layout : CBLAS_LAYOUT) (trans : CBLAS_TRANSPOSE) (X : List Int)
    (ld r c : Nat) : Int :=
  match trans with
  | .CblasNoTrans => blas_elem layout X ld r c
  | .CblasTrans => blas_elem layout X ld c r

/-- Modelled from the spec: the external BLAS routine `cblas_dgemm` (declared in
`mkl.h`, not part of the repository), by its reference definition
`C := alpha * op(A) * op(B) + beta * C` where `op(A)` is `M × K`, `op(B)` is
`K × N` and `C` is `M × N`, each operand being read in the given layout with
the leading dimension passed at the call.  The updated buffer of `C` is
returned. -/
def cblas_dgemm (layout : CBLAS_LAYOUT) (transA transB : CBLAS_TRANSPOSE) (M N K : Nat)
    (alpha : Int) (A : List Int) (lda : Nat) (B : List Int) (ldb : Nat)
    (beta : Int) (C : List Int) (ldc : Nat) : List Int :=
  forUp 0 M (fun i C =>
    forUp 0 N (fun j C =>
      let acc := forUp 0 K
        (fun p acc => acc + blas_op layout transA A lda i p * blas_op layout transB B ldb p j) 0
      C.set (blas_offset layout ldc i j)
        (alpha * acc + beta * blas_elem layout C ldc i j)) C) C

/-- Function `Matrix multiply_mkl(Matrix const &mat1, Matrix const &mat2)`. -/
def multiply_mkl (junk : Nat → Int) (mat1 mat2 : Matrix) : Matrix :=
  let ret := Matrix.new junk mat1.nrow mat2.ncol
  { ret with
    m_buffer := cblas_dgemm .CblasRowMajor .CblasNoTrans .CblasNoTrans
      mat1.nrow mat2.ncol mat1.ncol 1 mat1.data mat1.ncol mat2.data mat2.ncol
      0 ret.data mat2.ncol }

/-! ## multiply_tile with checked element access

The same code, with every use of `operator()` replaced by an accessor that
tests `row < nrow` and `col < ncol` first and stops the run when the test
fails. -/

/-- What stops a run with checked element access: an exception thrown by the
code itself, or an element access outside the matrix. -/
inductive Failure where
  | thrown (e : Exception)
  | out_of_bounds (row col : Nat)
deriving DecidableEq

/-- Iterations of a unit-step loop whose body may stop the run. -/
def forUpAuxC {σ : Type} (body : Nat → σ → Except Failure σ) :
    Nat → Nat → σ → Except Failure σ
  | 0, _, s => .ok s
  | n + 1, i, s =>
    match body i s with
    | .error e => .error e
    | .ok s' => forUpAuxC body n (i + 1) s'

/-- The loop `for (size_t i = lo; i < hi; ++i) s = body i s` whose body may stop
the run. -/
def forUpC {σ : Type} (lo hi : Nat) (body : Nat → σ → Except Failure σ) (s : σ) :
    Except Failure σ :=
  forUpAuxC body (hi - lo) lo s

/-- The loop `for (size_t i = start; i < bound; i += step) s = body i s` whose
body may stop the run or fail to finish. -/
def forStepC {σ : Type} (fuel : Nat) (i bound step : Nat)
    (body : Nat → σ → Option (Except Failure σ)) (s : σ) : Option (Except Failure σ) :=
  match fuel with
  | 0 => none
  | fuel + 1 =>
    if i < bound then
      match body i s with
      | none => none
      | some (.error e) => some (.error e)
      | some (.ok s') => forStepC fuel (i + step) bound step body s'
    else some (.ok s)

/-- Checked `operator() (row, col) const`. -/
def Matrix.read_checked (self : Matrix) (row col : Nat) : Except Failure Int :=
  if row < self.m_nrow ∧ col < self.m_ncol then .ok (self.read row col)
  else .error (.out_of_bounds row col)

/-- Checked `self(row, col) = v`. -/
def Matrix.write_checked (self : Matrix) (row col : Nat) (v : Int) : Except Failure Matrix :=
  if row < self.m_nrow ∧ col < self.m_ncol then .ok (self.write row col v)
  else .error (.out_of_bounds row col)

/-- The statement `v += mat1(tile_i, tile_j) * mat2(tile_j, tile_k)` with checked
reads. -/
def tile_accumulate_checked (mat1 mat2 : Matrix) (tile_i tile_k tile_j : Nat) (v : Int) :
    Except Failure Int :=
  match mat1.read_checked tile_i tile_j with
  | .error e => .error e
  | .ok x =>
    match mat2.read_checked tile_j tile_k with
    | .error e => .error e
    | .ok y => .ok (v + x * y)

/-- The statement `ret(tile_i, tile_k) += v` with a checked read and a checked
write. -/
def tile_store_checked (ret : Matrix) (tile_i tile_k : Nat) (v : Int) : Except Failure Matrix :=
  match ret.read_checked tile_i tile_k with
  | .error e => .error e
  | .ok old => ret.write_checked tile_i tile_k (old + v)

/-- The three innermost loops of `multiply_tile` with checked accesses. -/
def tile_block_checked (mat1 mat2 : Matrix) (i index_i k index_k j index_j : Nat)
    (ret : Matrix) : Except Failure Matrix :=
  forUpC i index_i (fun tile_i ret =>
    forUpC k index_k (fun tile_k ret =>
      match forUpC j index_j
          (fun tile_j v => tile_accumulate_checked mat1 mat2 tile_i tile_k tile_j v) 0 with
      | .error e => .error e
      | .ok v => tile_store_checked ret tile_i tile_k v) ret) ret

/-- The block loops of `multiply_tile` with checked accesses. -/
def tile_loops_checked (fuel : Nat) (mat1 mat2 : Matrix) (tile_size : Nat) (ret : Matrix) :
    Option (Except Failure Matrix) :=
  forStepC fuel 0 mat1.nrow tile_size (fun i ret =>
    let index_i := if i + tile_size < mat1.nrow then i + tile_size else mat1.nrow
    forStepC fuel 0 mat2.ncol tile_size (fun k ret =>
      let index_k := if k + tile_size < mat2.ncol then k + tile_size else mat2.ncol
      forStepC fuel 0 mat1.nrow tile_size (fun j ret =>
        let index_j := if j + tile_size < mat1.ncol then j + tile_size else mat1.ncol
        some (tile_block_checked mat1 mat2 i index_i k index_k j index_j ret)) ret) ret) ret

/-- Function `multiply_tile` with checked accesses.  The result is `none` when
some loop is still running after `fuel` iterations, `some (.error (.thrown e))`
when the code throws `e`, `some (.error (.out_of_bounds row col))` when an
access at `(row, col)` is outside the matrix accessed, and `some (.ok ret)` when
`ret` is returned. -/
def multiply_tile_checked (fuel : Nat) (junk : Nat → Int) (mat1 mat2 : Matrix)
    (tile_size : Nat) : Option (Except Failure Matrix) :=
  if mat1.ncol ≠ mat2.nrow then
    some (.error (.thrown (.out_of_range "Incorrect dimensions for matrix multiplication")))
  else
    let ret := Matrix.new junk mat1.nrow mat2.ncol
    match forUpC 0 mat1.nrow (fun i ret =>
        forUpC 0 mat2.ncol (fun j ret => ret.write_checked i j 0) ret) ret with
    | .error e => some (.error e)
    | .ok ret => tile_loops_checked fuel mat1 mat2 tile_size ret

/-! ## Matrix objects in the free store

Where it matters whether two objects share storage, or what `!=` makes of a
cell that is not a number, a `Matrix` object is its two dimensions and a
pointer, the arrays live in a free store, and a cell is a `Double`. -/

/-- A `double` as far as copying and `!=` can tell: a number or NaN. -/
inductive Double where
  | num (x : Int)
  | nan
deriving DecidableEq

/-- The comparison `a != b` on `double`: two numbers differ when they are not
the same number, and NaN differs from everything, itself included. -/
def Double.ne : Double → Double → Bool
  | .num x, .num y => decide (x ≠ y)
  | _, _ => true

/-- The free store: the arrays handed out by `new double[n]`, by address.
`new` hands out an address that was never handed out before; the array at a
released address is empty. -/
abbrev Heap := List (List Double)

/-- The data members of `class Matrix`, `m_buffer` being a pointer into the
free store (`none` is `nullptr`). -/
structure MatrixPtr where
  m_nrow : Nat
  m_ncol : Nat
  m_buffer : Option Nat
deriving DecidableEq

namespace MatrixPtr

/-- The array that `m_buffer` points to. -/
def deref (h : Heap) (self : MatrixPtr) : List Double :=
  match self.m_buffer with
  | none => []
  | some p => h.getD p []

/-- Member `size_t index(size_t row, size_t col) const`. -/
def index (self : MatrixPtr) (row col : Nat) : Nat := (row + col * self.m_nrow) % SIZE_MOD

/-- Member `double operator() (size_t row, size_t col) const`. -/
def read (h : Heap) (self : MatrixPtr) (row col : Nat) : Double :=
  (self.deref h).getD (self.index row col) (.num 0)

/-- Member `double & operator() (size_t row, size_t col)` used as the target of
an assignment: `self(row, col) = v`. -/
def write (h : Heap) (self : MatrixPtr) (row col : Nat) (v : Double) : Heap :=
  match self.m_buffer with
  | none => h
  | some p => h.set p ((h.getD p []).set (self.index row col) v)

/-- Member `void reset_buffer(size_t nrow, size_t ncol)`: `delete[]` of the old
buffer when there is one, then `new double[nelement]` (contents `junk`) when
`nelement`, the product `nrow * ncol` in `size_t`, is not zero. -/
def reset_buffer (junk : Nat → Double) (h : Heap) (self : MatrixPtr) (nrow ncol : Nat) :
    Heap × MatrixPtr :=
  let h1 := match self.m_buffer with
    | none => h
    | some p => h.set p []
  let nelement := (nrow * ncol) % SIZE_MOD
  if nelement ≠ 0 then
    (h1 ++ [(List.range nelement).map junk],
      { m_nrow := nrow, m_ncol := ncol, m_buffer := some h1.length })
  else (h1, { m_nrow := nrow, m_ncol := ncol, m_buffer := none })

/-- Copy constructor `Matrix(Matrix const &other)`: the new free store and the
new object. -/
def copy (junk : Nat → Double) (h : Heap) (other : MatrixPtr) : Heap × MatrixPtr :=
  let r := reset_buffer junk h
    { m_nrow := other.m_nrow, m_ncol := other.m_ncol, m_buffer := none }
    other.m_nrow other.m_ncol
  (forUp 0 r.2.m_nrow (fun i h =>
      forUp 0 r.2.m_ncol (fun j h => r.2.write h i j (other.read h i j)) h) r.1,
    r.2)

/-- Member `bool operator==(Matrix const &other)`; `same` is the outcome of the
test `this == &other`, true exactly when the two operands are one object. -/
def operator_eq (h : Heap) (self other : MatrixPtr) (same : Bool) : Bool :=
  if same then true
  else if self.m_nrow ≠ other.m_nrow ∨ self.m_ncol ≠ other.m_ncol then false
  else
    (List.range self.m_nrow).all fun i =>
      (List.range self.m_ncol).all fun j =>
        !(Double.ne (self.read h i j) (other.read h i j))

/-- A live object: its buffer was allocated and holds `m_nrow * m_ncol` cells
(fewer than `SIZE_MOD`), or it is `nullptr` and the matrix has no cell. -/
def Valid (h : Heap) (self : MatrixPtr) : Prop :=
  match self.m_buffer with
  | none => self.m_nrow * self.m_ncol = 0
  | some p => p < h.length ∧ (h.getD p []).length = self.m_nrow * self.m_ncol ∧
      self.m_nrow * self.m_ncol < SIZE_MOD

end MatrixPtr

/-! ## Test data -/

/-- The matrix with the given rows, filled through `operator()(row, col)`
starting from a fresh `nrow × ncol` matrix. -/
def ofRows (junk : Nat → Int) (nrow ncol : Nat) (rows : List (List Int)) : Matrix :=
  forUp 0 nrow (fun i m =>
    forUp 0 ncol (fun j m => m.write i j ((rows.getD i []).getD j 0)) m)
    (Matrix.new junk nrow ncol)

/-- The rows of a matrix, read through `operator()(row, col)`. -/
def toRows (m : Matrix) : List (List Int) :=
  (List.range m.nrow).map fun i => (List.range m.ncol).map fun j => m.read i j

/-- The `d × d` identity matrix, filled through `operator()(row, col)`. -/
def identity (junk : Nat → Int) (d : Nat) : Matrix :=
  forUp 0 d (fun i m =>
    forUp 0 d (fun j m => m.write i j (if i = j then 1 else 0)) m)
    (Matrix.new junk d d)

/-! ## Specification vocabulary -/

/-- A matrix object of the given dimensions whose buffer has the right length,
below `SIZE_MOD`. -/
def Shape (M : Matrix) (m n : Nat) : Prop :=
  M.m_nrow = m ∧ M.m_ncol = n ∧ M.m_buffer.length = m * n ∧ m * n < SIZE_MOD

/-- The dot product of row `i` of `mat1` and column `j` of `mat2` over the
contraction indices below `K`. -/
def dot (mat1 mat2 : Matrix) (K i j : Nat) : Int :=
  ∑ p ∈ Finset.range K, mat1.read i p * mat2.read p j

/-- Number of iterations of `for (i = 0; i < bound; i += step)` when
`step ≥ 1`: the least `q` with `bound ≤ q * step`. -/
def nblocks (bound step : Nat) : Nat := (bound + step - 1) / step

/-- The free store `s` extends the free store `h` by one array of `m * n`
cells, at the address `h.length`, and agrees with `h` below that address. -/
def Extends (h : Heap) (m n : Nat) (s : Heap) : Prop :=
  s.length = h.length + 1 ∧ (∀ q, q < h.length → s.getD q [] = h.getD q []) ∧
    (s.getD h.length []).length = m * n

/-- The matrix object `I` is the `d × d` matrix with `1` on the diagonal and `0`
elsewhere. -/
def IsIdentity (I : Matrix) (d : Nat) : Prop :=
  Shape I d d ∧ ∀ i j, i < d → j < d → I.read i j = if i = j then 1 else 0

/-! ## Loop rules -/

theorem forUpAux_inv {σ : Type} (body : Nat → σ → σ) (P : Nat → σ → Prop) :
    ∀ (n i : Nat) (s : σ), P i s →
      (∀ j s, i ≤ j → j < i + n → P j s → P (j + 1) (body j s)) →
      P (i + n) (forUpAux body n i s) := by
  intro n
  induction n with
  | zero => intro i s h _; simpa [forUpAux] using h
  | succ n ih =>
    intro i s h hstep
    have h1 : P (i + 1) (body i s) := hstep i s (Nat.le_refl i) (by omega) h
    have h2 := ih (i + 1) (body i s) h1
      (fun j s hj hlt hP => hstep j s (by omega) (by omega) hP)
    have e : i + (n + 1) = i + 1 + n := by omega
    rw [e]
    simpa [forUpAux] using h2

/-- Invariant rule for a unit-step loop that runs at least zero times. -/
theorem forUp_inv {σ : Type} (body : Nat → σ → σ) (P : Nat → σ → Prop) (lo hi : Nat) (s : σ)
    (hle : lo ≤ hi) (h0 : P lo s)
    (hstep : ∀ j s, lo ≤ j → j < hi → P j s → P (j + 1) (body j s)) :
    P hi (forUp lo hi body s) := by
  have h := forUpAux_inv body P (hi - lo) lo s h0
    (fun j s hj hlt hP => hstep j s hj (by omega) hP)
  have e : lo + (hi - lo) = hi := by omega
  rw [e] at h
  exact h

/-- A unit-step loop whose start is not below its bound does nothing. -/
theorem forUp_ge {σ : Type} (body : Nat → σ → σ) (lo hi : Nat) (s : σ) (h : hi ≤ lo) :
    forUp lo hi body s = s := by
  have e : hi - lo = 0 := by omega
  simp [forUp, e, forUpAux]

/-- An accumulation loop computes a sum over its index range. -/
theorem forUp_sum (f : Nat → Int) (lo hi : Nat) (v0 : Int) :
    forUp lo hi (fun j v => v + f j) v0 = v0 + ∑ p ∈ Finset.Ico lo hi, f p := by
  rcases Nat.lt_or_ge hi lo with h | h
  · rw [forUp_ge _ _ _ _ (Nat.le_of_lt h), Finset.Ico_eq_empty (by omega)]
    simp
  · refine forUp_inv (fun j v => v + f j) (fun j v => v = v0 + ∑ p ∈ Finset.Ico lo j, f p)
      lo hi v0 h (by simp) ?_
    intro j s hj _ hs
    rw [Finset.sum_Ico_succ_top hj, hs]
    ring

/-! ## Cell access -/

theorem index_lt {m n r c : Nat} (hr : r < m) (hc : c < n) : r + c * m < m * n := by
  have h1 : (c + 1) * m ≤ n * m := Nat.mul_le_mul_right m hc
  have h2 : (c + 1) * m = c * m + m := by ring
  have h3 : n * m = m * n := Nat.mul_comm n m
  omega

theorem index_inj {m r c r' c' : Nat} (hr : r < m) (hr' : r' < m)
    (h : r + c * m = r' + c' * m) : r = r' ∧ c = c' := by
  have hc : c = c' := by
    rcases Nat.lt_trichotomy c c' with hlt | heq | hgt
    · have h1 : (c + 1) * m ≤ c' * m := Nat.mul_le_mul_right m hlt
      have h2 : (c + 1) * m = c * m + m := by ring
      omega
    · exact heq
    · have h1 : (c' + 1) * m ≤ c * m := Nat.mul_le_mul_right m hgt
      have h2 : (c' + 1) * m = c' * m + m := by ring
      omega
  subst hc
  exact ⟨by omega, rfl⟩

theorem write_shape {M : Matrix} {m n : Nat} (h : Shape M m n) (r c : Nat) (v : Int) :
    Shape (M.write r c v) m n := by
  obtain ⟨h1, h2, h3, h4⟩ := h
  exact ⟨h1, h2, by simpa [Matrix.write] using h3, h4⟩

/-- The offset of an in-bounds cell does not wrap. -/
theorem index_eq {M : Matrix} {m n : Nat} (h : Shape M m n) {r c : Nat}
    (hr : r < m) (hc : c < n) : M.index r c = r + c * m := by
  obtain ⟨h1, _, _, h4⟩ := h
  unfold Matrix.index
  rw [h1]
  exact Nat.mod_eq_of_lt (Nat.lt_trans (index_lt hr hc) h4)

theorem read_write {M : Matrix} {m n : Nat} (h : Shape M m n) {r c r' c' : Nat}
    (hr : r < m) (hc : c < n) (hr' : r' < m) (_hc' : c' < n) (v : Int) :
    (M.write r c v).read r' c' = if r' = r ∧ c' = c then v else M.read r' c' := by
  have hi := index_eq h hr hc
  have hi' := index_eq h hr' _hc'
  have hw : (M.write r c v).index r' c' = M.index r' c' := rfl
  obtain ⟨h1, h2, h3, h4⟩ := h
  have hlt : r + c * m < M.m_buffer.length := by rw [h3]; exact index_lt hr hc
  unfold Matrix.read
  rw [hw, hi']
  unfold Matrix.write
  rw [hi]
  by_cases e : r' = r ∧ c' = c
  · obtain ⟨e1, e2⟩ := e
    subst e1 e2
    simp [hlt]
  · have hne : r + c * m ≠ r' + c' * m := by
      intro heq
      obtain ⟨a, b⟩ := index_inj hr hr' heq
      exact e ⟨a.symm, b.symm⟩
    simp [e, List.getElem?_set_ne hne]

theorem new_shape (junk : Nat → Int) (m n : Nat) (hb : m * n < SIZE_MOD) :
    Shape (Matrix.new junk m n) m n := by
  refine ⟨rfl, rfl, ?_, hb⟩
  have e : m * n % SIZE_MOD = m * n := Nat.mod_eq_of_lt hb
  by_cases h : m * n = 0
  · simp [Matrix.new, Matrix.reset_buffer, e, h]
  · simp [Matrix.new, Matrix.reset_buffer, e, h]

/-- One row of a block update: the cells `(r, c)` with `lk ≤ c < hk` are
replaced by `upd r c old`, every other cell keeps its value. -/
theorem row_update {M : Matrix} {m n : Nat} (h : Shape M m n) (upd : Nat → Nat → Int → Int)
    {r lk hk : Nat} (hr : r < m) (hk_le : hk ≤ n) :
    Shape (forUp lk hk (fun c S => S.write r c (upd r c (S.read r c))) M) m n ∧
    ∀ r' c', r' < m → c' < n →
      (forUp lk hk (fun c S => S.write r c (upd r c (S.read r c))) M).read r' c' =
        if r' = r ∧ lk ≤ c' ∧ c' < hk then upd r c' (M.read r c') else M.read r' c' := by
  rcases Nat.lt_or_ge hk lk with hlt | hge
  · rw [forUp_ge _ _ _ _ (Nat.le_of_lt hlt)]
    refine ⟨h, ?_⟩
    intro r' c' _ _
    rw [if_neg (by omega)]
  · refine forUp_inv (fun c S => S.write r c (upd r c (S.read r c)))
      (fun j S => Shape S m n ∧ ∀ r' c', r' < m → c' < n →
        S.read r' c' = if r' = r ∧ lk ≤ c' ∧ c' < j then upd r c' (M.read r c')
          else M.read r' c') lk hk M hge ?_ ?_
    · refine ⟨h, ?_⟩
      intro r' c' _ _
      rw [if_neg (by omega)]
    · intro j S hj hjk ⟨hS, hcells⟩
      refine ⟨write_shape hS _ _ _, ?_⟩
      intro r' c' hr' hc'
      have hjn : j < n := by omega
      have hSrj : S.read r j = M.read r j := by
        rw [hcells r j hr hjn]
        exact if_neg (by omega)
      rw [read_write hS hr hjn hr' hc', hSrj]
      by_cases e : r' = r ∧ c' = j
      · rw [if_pos e, if_pos ⟨e.1, by omega, by omega⟩, e.2]
      · rw [if_neg e, hcells r' c' hr' hc']
        by_cases e2 : r' = r ∧ lk ≤ c' ∧ c' < j
        · rw [if_pos e2, if_pos ⟨e2.1, e2.2.1, by omega⟩]
        · rw [if_neg e2, if_neg]
          intro ⟨a, b, c⟩
          by_cases e3 : c' = j
          · exact e ⟨a, e3⟩
          · exact e2 ⟨a, b, by omega⟩

/-- A loop over rows whose body updates the cells `lk ≤ c < hk` of its row
updates a block: the cells `(r, c)` with `li ≤ r < hi` and `lk ≤ c < hk` are
replaced by `upd r c old`, every other cell keeps its value. -/
theorem rows_update {M : Matrix} {m n : Nat} (h : Shape M m n) (upd : Nat → Nat → Int → Int)
    (body : Nat → Matrix → Matrix) (li lk hk : Nat) {hi : Nat} (hi_le : hi ≤ m)
    (hbody : ∀ r S, li ≤ r → r < hi → Shape S m n →
      Shape (body r S) m n ∧ ∀ r' c', r' < m → c' < n →
        (body r S).read r' c' =
          if r' = r ∧ lk ≤ c' ∧ c' < hk then upd r c' (S.read r c') else S.read r' c') :
    Shape (forUp li hi body M) m n ∧
    ∀ r' c', r' < m → c' < n →
      (forUp li hi body M).read r' c' =
        if li ≤ r' ∧ r' < hi ∧ lk ≤ c' ∧ c' < hk then upd r' c' (M.read r' c')
        else M.read r' c' := by
  rcases Nat.lt_or_ge hi li with hlt | hge
  · rw [forUp_ge _ _ _ _ (Nat.le_of_lt hlt)]
    refine ⟨h, ?_⟩
    intro r' c' _ _
    rw [if_neg (by omega)]
  · refine forUp_inv body
      (fun j S => Shape S m n ∧ ∀ r' c', r' < m → c' < n →
        S.read r' c' = if li ≤ r' ∧ r' < j ∧ lk ≤ c' ∧ c' < hk then upd r' c' (M.read r' c')
          else M.read r' c') li hi M hge ?_ ?_
    · refine ⟨h, ?_⟩
      intro r' c' _ _
      rw [if_neg (by omega)]
    · intro j S hj hjk ⟨hS, hcells⟩
      have hjm : j < m := by omega
      obtain ⟨hS', hrow⟩ := hbody j S hj hjk hS
      refine ⟨hS', ?_⟩
      intro r' c' hr' hc'
      rw [hrow r' c' hr' hc']
      by_cases e : r' = j ∧ lk ≤ c' ∧ c' < hk
      · obtain ⟨e1, e2, e3⟩ := e
        have hSjc : S.read j c' = M.read r' c' := by
          rw [hcells j c' hjm hc', e1]
          exact if_neg (by omega)
        rw [if_pos ⟨e1, e2, e3⟩, hSjc, if_pos ⟨by omega, by omega, e2, e3⟩, e1]
      · rw [if_neg e, hcells r' c' hr' hc']
        by_cases e2 : li ≤ r' ∧ r' < j ∧ lk ≤ c' ∧ c' < hk
        · rw [if_pos e2, if_pos ⟨e2.1, by omega, e2.2.2⟩]
        · rw [if_neg e2, if_neg]
          intro ⟨a, b, c, d⟩
          by_cases e3 : r' = j
          · exact e ⟨e3, c, d⟩
          · exact e2 ⟨a, by omega, c, d⟩

/-- A block update with fixed bounds. -/
theorem block_update {M : Matrix} {m n : Nat} (h : Shape M m n) (upd : Nat → Nat → Int → Int)
    (li lk : Nat) {hi hk : Nat} (hi_le : hi ≤ m) (hk_le : hk ≤ n) :
    Shape (forUp li hi (fun r S =>
        forUp lk hk (fun c S => S.write r c (upd r c (S.read r c))) S) M) m n ∧
    ∀ r' c', r' < m → c' < n →
      (forUp li hi (fun r S =>
        forUp lk hk (fun c S => S.write r c (upd r c (S.read r c))) S) M).read r' c' =
        if li ≤ r' ∧ r' < hi ∧ lk ≤ c' ∧ c' < hk then upd r' c' (M.read r' c')
        else M.read r' c' :=
  rows_update h upd _ li lk hk hi_le (fun _ _ _ hr hS => row_update hS upd (by omega) hk_le)

/-- A double loop over the whole matrix, the bound of the inner loop being read
from the matrix (`ret.ncol()`), that overwrites every cell. -/
theorem fill_update {M : Matrix} {m n : Nat} (h : Shape M m n) (g : Nat → Nat → Int) :
    Shape (forUp 0 m (fun r S => forUp 0 S.ncol (fun c S => S.write r c (g r c)) S) M) m n ∧
    ∀ r c, r < m → c < n →
      (forUp 0 m (fun r S => forUp 0 S.ncol (fun c S => S.write r c (g r c)) S) M).read r c
        = g r c := by
  have key := rows_update h (fun r c _ => g r c)
    (fun r S => forUp 0 S.ncol (fun c S => S.write r c (g r c)) S)
    0 0 n (Nat.le_refl m)
    (fun r S _ hr hS => by
      have e : S.ncol = n := hS.2.1
      beta_reduce
      rw [e]
      exact row_update hS (fun r c _ => g r c) hr (Nat.le_refl n))
  refine ⟨key.1, ?_⟩
  intro r c hr hc
  rw [key.2 r c hr hc, if_pos ⟨Nat.zero_le _, hr, Nat.zero_le _, hc⟩]

/-! ## multiply_naive: the cells of the result -/

theorem naive_cells (junk : Nat → Int) (mat1 mat2 : Matrix)
    (hb : mat1.nrow * mat2.ncol < SIZE_MOD) :
    Shape (multiply_naive junk mat1 mat2) mat1.nrow mat2.ncol ∧
    ∀ i j, i < mat1.nrow → j < mat2.ncol →
      (multiply_naive junk mat1 mat2).read i j = dot mat1 mat2 mat1.ncol i j := by
  have key := fill_update (new_shape junk mat1.nrow mat2.ncol hb)
    (fun i k => forUp 0 mat1.ncol (fun j v => v + mat1.read i j * mat2.read j k) 0)
  refine ⟨key.1, ?_⟩
  intro i j hi hj
  have e := key.2 i j hi hj
  rw [forUp_sum, ← Finset.range_eq_Ico, zero_add] at e
  exact e

/-! ## Loops that advance by the tile size -/

theorem lt_nblocks_iff {bound step : Nat} (hstep : 1 ≤ step) (q : Nat) :
    q < nblocks bound step ↔ q * step < bound := by
  unfold nblocks
  have h := Nat.le_div_iff_mul_le (x := q + 1) (y := bound + step - 1) hstep
  have e : (q + 1) * step = q * step + step := by ring
  rw [e] at h
  constructor
  · intro hq
    have := h.1 hq
    omega
  · intro hq
    have := h.2 (by omega)
    omega

theorem nblocks_le {bound step : Nat} (hstep : 1 ≤ step) : nblocks bound step ≤ bound := by
  by_contra hcon
  have hlt : bound < nblocks bound step := by omega
  have h := (lt_nblocks_iff hstep bound).1 hlt
  have h2 : bound * 1 ≤ bound * step := Nat.mul_le_mul_left bound hstep
  omega

theorem le_nblocks_mul {bound step : Nat} (hstep : 1 ≤ step) :
    bound ≤ nblocks bound step * step := by
  by_contra hcon
  have hlt : nblocks bound step * step < bound := by omega
  have h := (lt_nblocks_iff hstep (nblocks bound step)).2 hlt
  omega

/-- Invariant rule for a loop that advances by `step ≥ 1`: with enough fuel the
loop finishes, after `nblocks bound step` iterations. -/
theorem forStep_inv {σ : Type} (body : Nat → σ → Option σ) (P : Nat → σ → Prop)
    (bound step : Nat) (hstep : 1 ≤ step)
    (hbody : ∀ q s, q * step < bound → P q s → ∃ s', body (q * step) s = some s' ∧ P (q + 1) s') :
    ∀ (fuel q : Nat) (s : σ), q ≤ nblocks bound step → nblocks bound step < fuel + q → P q s →
      ∃ s', forStep fuel (q * step) bound step body s = some s' ∧ P (nblocks bound step) s' := by
  intro fuel
  induction fuel with
  | zero => intro q s h1 h2 _; omega
  | succ fuel ih =>
    intro q s h1 h2 hP
    unfold forStep
    by_cases hlt : q * step < bound
    · obtain ⟨s', hs', hP'⟩ := hbody q s hlt hP
      have hq : q < nblocks bound step := (lt_nblocks_iff hstep q).2 hlt
      have e : q * step + step = (q + 1) * step := by ring
      simp only [if_pos hlt, hs', e]
      exact ih (q + 1) s' hq (by omega) hP'
    · have hq : ¬ q < nblocks bound step := fun h => hlt ((lt_nblocks_iff hstep q).1 h)
      have e : q = nblocks bound step := by omega
      simp only [if_neg hlt]
      exact ⟨s, rfl, e ▸ hP⟩

/-- Invariant rule for a loop from `0` that advances by `step ≥ 1`. -/
theorem forStep_zero_inv {σ : Type} (body : Nat → σ → Option σ) (P : Nat → σ → Prop)
    (bound step fuel : Nat) (s : σ) (hstep : 1 ≤ step) (hfuel : bound < fuel) (h0 : P 0 s)
    (hbody : ∀ q s, q * step < bound → P q s → ∃ s', body (q * step) s = some s' ∧ P (q + 1) s') :
    ∃ s', forStep fuel 0 bound step body s = some s' ∧ P (nblocks bound step) s' := by
  have h := forStep_inv body P bound step hstep hbody fuel 0 s (Nat.zero_le _)
    (by have hle : nblocks bound step ≤ bound := nblocks_le hstep
        omega) h0
  rw [Nat.zero_mul] at h
  exact h

/-- The clamped end of a block is a minimum. -/
theorem clamp_eq_min (a T K : Nat) : (if a + T < K then a + T else K) = min (a + T) K := by
  split_ifs <;> omega

/-! ## multiply_tile: the cells of the result -/

theorem tile_block_cells (mat1 mat2 : Matrix) {ret : Matrix} {m n : Nat} (h : Shape ret m n)
    {i index_i k index_k : Nat} (j index_j : Nat) (hi : index_i ≤ m) (hk : index_k ≤ n) :
    Shape (tile_block mat1 mat2 i index_i k index_k j index_j ret) m n ∧
    ∀ r c, r < m → c < n →
      (tile_block mat1 mat2 i index_i k index_k j index_j ret).read r c =
        if i ≤ r ∧ r < index_i ∧ k ≤ c ∧ c < index_k then
          ret.read r c + ∑ p ∈ Finset.Ico j index_j, mat1.read r p * mat2.read p c
        else ret.read r c := by
  have key := block_update h
    (fun r c old => old + ∑ p ∈ Finset.Ico j index_j, mat1.read r p * mat2.read p c)
    i k hi hk
  have e : tile_block mat1 mat2 i index_i k index_k j index_j ret =
      forUp i index_i (fun r S => forUp k index_k (fun c S =>
        S.write r c (S.read r c + ∑ p ∈ Finset.Ico j index_j, mat1.read r p * mat2.read p c))
        S) ret := by
    unfold tile_block
    simp only [forUp_sum, zero_add]
  rw [e]
  exact key

theorem dot_extend (mat1 mat2 : Matrix) (K j T r c : Nat) :
    dot mat1 mat2 (min j K) r c +
      ∑ p ∈ Finset.Ico j (if j + T < K then j + T else K), mat1.read r p * mat2.read p c =
    dot mat1 mat2 (min (j + T) K) r c := by
  rw [clamp_eq_min]
  unfold dot
  by_cases hj : j ≤ K
  · rw [Nat.min_eq_left hj]
    exact Finset.sum_range_add_sum_Ico _ (by omega)
  · have e1 : min j K = K := by omega
    have e2 : min (j + T) K = K := by omega
    rw [e1, e2, Finset.Ico_eq_empty (by omega)]
    simp

/-- The contraction-block loop for one output block: the block receives the
dot products over the contraction indices covered by the blocks visited. -/
theorem tile_j_loop (mat1 mat2 : Matrix) {m n T fuel : Nat} (hT : 1 ≤ T)
    (hfuel : mat1.nrow < fuel) {i index_i k index_k : Nat} (hi : index_i ≤ m)
    (hk : index_k ≤ n) (ret : Matrix) (h : Shape ret m n) :
    ∃ ret', forStep fuel 0 mat1.nrow T (fun j ret =>
        some (tile_block mat1 mat2 i index_i k index_k j
          (if j + T < mat1.ncol then j + T else mat1.ncol) ret)) ret = some ret' ∧
      Shape ret' m n ∧
      ∀ r c, r < m → c < n → ret'.read r c =
        if i ≤ r ∧ r < index_i ∧ k ≤ c ∧ c < index_k then
          ret.read r c + dot mat1 mat2 (min (nblocks mat1.nrow T * T) mat1.ncol) r c
        else ret.read r c := by
  refine forStep_zero_inv _
    (fun q S => Shape S m n ∧ ∀ r c, r < m → c < n → S.read r c =
      if i ≤ r ∧ r < index_i ∧ k ≤ c ∧ c < index_k then
        ret.read r c + dot mat1 mat2 (min (q * T) mat1.ncol) r c
      else ret.read r c) mat1.nrow T fuel ret hT hfuel ?_ ?_
  · refine ⟨h, ?_⟩
    intro r c _ _
    simp [dot]
  · intro q S _ ⟨hS, hcells⟩
    obtain ⟨hS', hblock⟩ := tile_block_cells mat1 mat2 hS (i := i) (k := k) (q * T)
      (if q * T + T < mat1.ncol then q * T + T else mat1.ncol) hi hk
    refine ⟨_, rfl, hS', ?_⟩
    intro r c hr hc
    rw [hblock r c hr hc, hcells r c hr hc]
    by_cases e : i ≤ r ∧ r < index_i ∧ k ≤ c ∧ c < index_k
    · rw [if_pos e, if_pos e, if_pos e, Nat.add_one_mul, add_assoc, dot_extend]
    · rw [if_neg e, if_neg e, if_neg e]

/-- The column-block loop for one block of rows. -/
theorem tile_k_loop (mat1 mat2 : Matrix) {m n T fuel : Nat} (hT : 1 ≤ T)
    (hf1 : mat1.nrow < fuel) (hf2 : mat2.ncol < fuel) (hn : mat2.ncol = n)
    {i index_i : Nat} (hi : index_i ≤ m) (ret : Matrix) (h : Shape ret m n) :
    ∃ ret', forStep fuel 0 mat2.ncol T (fun k ret =>
        forStep fuel 0 mat1.nrow T (fun j ret =>
          some (tile_block mat1 mat2 i index_i k
            (if k + T < mat2.ncol then k + T else mat2.ncol) j
            (if j + T < mat1.ncol then j + T else mat1.ncol) ret)) ret) ret = some ret' ∧
      Shape ret' m n ∧
      ∀ r c, r < m → c < n → ret'.read r c =
        if i ≤ r ∧ r < index_i then
          ret.read r c + dot mat1 mat2 (min (nblocks mat1.nrow T * T) mat1.ncol) r c
        else ret.read r c := by
  have hfin := forStep_zero_inv
    (fun k ret => forStep fuel 0 mat1.nrow T (fun j ret =>
      some (tile_block mat1 mat2 i index_i k
        (if k + T < mat2.ncol then k + T else mat2.ncol) j
        (if j + T < mat1.ncol then j + T else mat1.ncol) ret)) ret)
    (fun q S => Shape S m n ∧ ∀ r c, r < m → c < n → S.read r c =
      if i ≤ r ∧ r < index_i ∧ c < min (q * T) n then
        ret.read r c + dot mat1 mat2 (min (nblocks mat1.nrow T * T) mat1.ncol) r c
      else ret.read r c) mat2.ncol T fuel ret hT hf2 ?_ ?_
  · obtain ⟨ret', hret', hS', hcells⟩ := hfin
    refine ⟨ret', hret', hS', ?_⟩
    intro r c hr hc
    rw [hcells r c hr hc]
    have hcov : n ≤ nblocks mat2.ncol T * T := hn ▸ le_nblocks_mul hT
    by_cases e : i ≤ r ∧ r < index_i
    · rw [if_pos e, if_pos ⟨e.1, e.2, by omega⟩]
    · rw [if_neg e, if_neg (fun e2 => e ⟨e2.1, e2.2.1⟩)]
  · refine ⟨h, ?_⟩
    intro r c _ _
    rw [if_neg (by omega)]
  · intro q S hq ⟨hS, hcells⟩
    have hk : (if q * T + T < mat2.ncol then q * T + T else mat2.ncol) ≤ n := by
      rw [clamp_eq_min]; omega
    obtain ⟨S', hS', hshape, hblock⟩ := tile_j_loop mat1 mat2 hT hf1 (i := i)
      (k := q * T) hi hk S hS
    refine ⟨S', hS', hshape, ?_⟩
    intro r c hr hc
    rw [hblock r c hr hc, hcells r c hr hc, clamp_eq_min, Nat.add_one_mul]
    by_cases e1 : i ≤ r ∧ r < index_i ∧ q * T ≤ c ∧ c < min (q * T + T) mat2.ncol
    · rw [if_pos e1, if_neg (by omega), if_pos ⟨e1.1, e1.2.1, by omega⟩]
    · rw [if_neg e1]
      by_cases e2 : i ≤ r ∧ r < index_i ∧ c < min (q * T) n
      · rw [if_pos e2, if_pos ⟨e2.1, e2.2.1, by omega⟩]
      · rw [if_neg e2, if_neg]
        intro ⟨a, b, d⟩
        by_cases e3 : c < q * T
        · exact e2 ⟨a, b, by omega⟩
        · exact e1 ⟨a, b, by omega, by omega⟩

/-- The block loops of `multiply_tile`, started on a zeroed result. -/
theorem tile_loops_cells (mat1 mat2 : Matrix) {T fuel : Nat} (hT : 1 ≤ T)
    (hf1 : mat1.nrow < fuel) (hf2 : mat2.ncol < fuel) (ret : Matrix)
    (h : Shape ret mat1.nrow mat2.ncol)
    (hzero : ∀ r c, r < mat1.nrow → c < mat2.ncol → ret.read r c = 0) :
    ∃ ret', tile_loops fuel mat1 mat2 T ret = some ret' ∧
      Shape ret' mat1.nrow mat2.ncol ∧
      ∀ r c, r < mat1.nrow → c < mat2.ncol → ret'.read r c =
        dot mat1 mat2 (min (nblocks mat1.nrow T * T) mat1.ncol) r c := by
  have hfin := forStep_zero_inv
    (fun i ret =>
      forStep fuel 0 mat2.ncol T (fun k ret =>
        forStep fuel 0 mat1.nrow T (fun j ret =>
          some (tile_block mat1 mat2 i (if i + T < mat1.nrow then i + T else mat1.nrow) k
            (if k + T < mat2.ncol then k + T else mat2.ncol) j
            (if j + T < mat1.ncol then j + T else mat1.ncol) ret)) ret) ret)
    (fun q S => Shape S mat1.nrow mat2.ncol ∧
      ∀ r c, r < mat1.nrow → c < mat2.ncol → S.read r c =
        if r < min (q * T) mat1.nrow then
          dot mat1 mat2 (min (nblocks mat1.nrow T * T) mat1.ncol) r c
        else 0) mat1.nrow T fuel ret hT hf1 ?_ ?_
  · obtain ⟨ret', hret', hS', hcells⟩ := hfin
    refine ⟨ret', hret', hS', ?_⟩
    intro r c hr hc
    have hcov : mat1.nrow ≤ nblocks mat1.nrow T * T := le_nblocks_mul hT
    rw [hcells r c hr hc, if_pos (by omega)]
  · refine ⟨h, ?_⟩
    intro r c hr hc
    rw [hzero r c hr hc, if_neg (by omega)]
  · intro q S hq ⟨hS, hcells⟩
    have hi : (if q * T + T < mat1.nrow then q * T + T else mat1.nrow) ≤ mat1.nrow := by
      rw [clamp_eq_min]; omega
    obtain ⟨S', hS', hshape, hblock⟩ := tile_k_loop mat1 mat2 hT hf1 hf2 rfl
      (i := q * T) hi S hS
    refine ⟨S', hS', hshape, ?_⟩
    intro r c hr hc
    rw [hblock r c hr hc, hcells r c hr hc, clamp_eq_min, Nat.add_one_mul]
    by_cases e1 : q * T ≤ r ∧ r < min (q * T + T) mat1.nrow
    · rw [if_pos e1, if_neg (by omega), if_pos (by omega), zero_add]
    · rw [if_neg e1]
      by_cases e2 : r < min (q * T) mat1.nrow
      · rw [if_pos e2, if_pos (by omega)]
      · rw [if_neg e2, if_neg (by omega)]

/-- With a tile size of at least one and compatible operands,
`multiply_tile` returns, and cell `(r, c)` of its result is the dot product
over the contraction indices below `min(t * ceil(m / t), k)`. -/
theorem tile_cells (junk : Nat → Int) (mat1 mat2 : Matrix) {T fuel : Nat} (hT : 1 ≤ T)
    (hk : mat1.ncol = mat2.nrow) (hf1 : mat1.nrow < fuel) (hf2 : mat2.ncol < fuel)
    (hb : mat1.nrow * mat2.ncol < SIZE_MOD) :
    ∃ ret, multiply_tile fuel junk mat1 mat2 T = some (.ok ret) ∧
      Shape ret mat1.nrow mat2.ncol ∧
      ∀ r c, r < mat1.nrow → c < mat2.ncol → ret.read r c =
        dot mat1 mat2 (min (nblocks mat1.nrow T * T) mat1.ncol) r c := by
  obtain ⟨hS0, hz⟩ := block_update (new_shape junk mat1.nrow mat2.ncol hb)
    (fun _ _ _ => 0) 0 0 (Nat.le_refl _) (Nat.le_refl _)
  obtain ⟨ret', hret', hS', hcells⟩ := tile_loops_cells mat1 mat2 hT hf1 hf2 _ hS0
    (fun r c hr hc => by rw [hz r c hr hc, if_pos ⟨Nat.zero_le _, hr, Nat.zero_le _, hc⟩])
  refine ⟨ret', ?_, hS', hcells⟩
  unfold multiply_tile
  rw [if_neg (by simpa using hk)]
  simp only [hret']

/-! ## Concrete operands -/

theorem ofRows_a (ja : Nat → Int) :
    ofRows ja 2 2 [[1, 2], [3, 4]] = { m_nrow := 2, m_ncol := 2, m_buffer := [1, 3, 2, 4] } :=
  rfl

theorem ofRows_b (jb : Nat → Int) :
    ofRows jb 2 2 [[5, 6], [7, 8]] = { m_nrow := 2, m_ncol := 2, m_buffer := [5, 7, 6, 8] } :=
  rfl

theorem toRows_two_by_two {ret : Matrix} (h : Shape ret 2 2) :
    toRows ret = [[ret.read 0 0, ret.read 0 1], [ret.read 1 0, ret.read 1 1]] := by
  obtain ⟨h1, h2, _⟩ := h
  simp [toRows, Matrix.nrow, Matrix.ncol, h1, h2, List.range_succ]

theorem identity_cells (junk : Nat → Int) (d : Nat) (hb : d * d < SIZE_MOD) :
    Shape (identity junk d) d d ∧
    ∀ i j, i < d → j < d → (identity junk d).read i j = if i = j then 1 else 0 := by
  obtain ⟨hS, hcells⟩ := block_update (new_shape junk d d hb)
    (fun i j _ => if i = j then 1 else 0) 0 0 (Nat.le_refl d) (Nat.le_refl d)
  refine ⟨hS, ?_⟩
  intro i j hi hj
  have e := hcells i j hi hj
  rw [if_pos ⟨Nat.zero_le _, hi, Nat.zero_le _, hj⟩] at e
  exact e

theorem operator_eq_iff (X Y : Matrix) :
    X.operator_eq Y false = true ↔
      X.m_nrow = Y.m_nrow ∧ X.m_ncol = Y.m_ncol ∧
        ∀ i j, i < X.m_nrow → j < X.m_ncol → X.read i j = Y.read i j := by
  unfold Matrix.operator_eq
  simp only [Bool.false_eq_true, if_false]
  by_cases h : X.m_nrow ≠ Y.m_nrow ∨ X.m_ncol ≠ Y.m_ncol
  · rw [if_pos h]
    constructor
    · intro hf; exact absurd hf (by simp)
    · intro ⟨a, b, _⟩
      rcases h with h | h
      · exact absurd a h
      · exact absurd b h
  · rw [if_neg h]
    have h1 : X.m_nrow = Y.m_nrow := by
      by_contra hne; exact h (Or.inl hne)
    have h2 : X.m_ncol = Y.m_ncol := by
      by_contra hne; exact h (Or.inr hne)
    simp only [List.all_eq_true, List.mem_range, h1, h2, Bool.not_eq_true', bne_eq_false_iff_eq,
      true_and]
    exact ⟨fun hh i j hi hj => hh i hi j hj, fun hh i hi j hj => hh i j hi hj⟩

theorem dot_identity_right (A I : Matrix) {k : Nat}
    (hI : ∀ p j, p < k → j < k → I.read p j = if p = j then 1 else 0)
    (i j : Nat) (hj : j < k) : dot A I k i j = A.read i j := by
  unfold dot
  rw [Finset.sum_eq_single j]
  · rw [hI j j hj hj, if_pos rfl, mul_one]
  · intro p hp hne
    rw [hI p j (Finset.mem_range.1 hp) hj, if_neg hne, mul_zero]
  · intro hmem
    exact absurd (Finset.mem_range.2 hj) hmem

theorem dot_identity_left (I A : Matrix) {m : Nat}
    (hI : ∀ i p, i < m → p < m → I.read i p = if i = p then 1 else 0)
    (i j : Nat) (hi : i < m) : dot I A m i j = A.read i j := by
  unfold dot
  rw [Finset.sum_eq_single i]
  · rw [hI i i hi hi, if_pos rfl, one_mul]
  · intro p hp hne
    rw [hI i p hi (Finset.mem_range.1 hp), if_neg (fun e => hne e.symm), zero_mul]
  · intro hmem
    exact absurd (Finset.mem_range.2 hi) hmem

/-- One row of a double loop over a store of cells that is read with `rd` and
written with `wr`: the cells of row `r` are replaced by `upd r c old`. -/
theorem grid_row_update {σ α : Type} (Inv : σ → Prop) (rd : σ → Nat → Nat → α)
    (wr : σ → Nat → Nat → α → σ) (m n : Nat)
    (hwr : ∀ s r c v, Inv s → r < m → c < n → Inv (wr s r c v))
    (hrw : ∀ s r c r' c' v, Inv s → r < m → c < n → r' < m → c' < n →
      rd (wr s r c v) r' c' = if r' = r ∧ c' = c then v else rd s r' c')
    (upd : Nat → Nat → α → α) (body : Nat → Nat → σ → σ)
    (hbody : ∀ r c s, Inv s → r < m → c < n → body r c s = wr s r c (upd r c (rd s r c)))
    (r : Nat) (hr : r < m) (s0 : σ) (h0 : Inv s0) :
    Inv (forUp 0 n (fun c s => body r c s) s0) ∧
    ∀ r' c', r' < m → c' < n →
      rd (forUp 0 n (fun c s => body r c s) s0) r' c' =
        if r' = r then upd r c' (rd s0 r c') else rd s0 r' c' := by
  have key := forUp_inv (fun c s => body r c s)
    (fun j s => Inv s ∧ ∀ r' c', r' < m → c' < n →
      rd s r' c' = if r' = r ∧ c' < j then upd r c' (rd s0 r c') else rd s0 r' c')
    0 n s0 (Nat.zero_le n)
    ⟨h0, fun r' c' _ _ => by rw [if_neg (by omega)]⟩
    (by
      intro j s _ hjn ⟨hI, hcells⟩
      have hsj : rd s r j = rd s0 r j := by
        rw [hcells r j hr hjn]
        exact if_neg (by omega)
      beta_reduce
      rw [hbody r j s hI hr hjn]
      refine ⟨hwr s r j _ hI hr hjn, ?_⟩
      intro r' c' hr' hc'
      rw [hrw s r j r' c' _ hI hr hjn hr' hc', hsj]
      by_cases e : r' = r ∧ c' = j
      · rw [if_pos e, if_pos ⟨e.1, by omega⟩, e.2]
      · rw [if_neg e, hcells r' c' hr' hc']
        by_cases e2 : r' = r ∧ c' < j
        · rw [if_pos e2, if_pos ⟨e2.1, by omega⟩]
        · rw [if_neg e2, if_neg]
          intro ⟨a, b⟩
          by_cases e3 : c' = j
          · exact e ⟨a, e3⟩
          · exact e2 ⟨a, by omega⟩)
  refine ⟨key.1, ?_⟩
  intro r' c' hr' hc'
  rw [key.2 r' c' hr' hc']
  by_cases e : r' = r
  · rw [if_pos ⟨e, hc'⟩, if_pos e]
  · rw [if_neg (fun h => e h.1), if_neg e]

/-- A double loop over all cells of a store that is read with `rd` and written
with `wr`: every cell is replaced by `upd r c old`. -/
theorem grid_update {σ α : Type} (Inv : σ → Prop) (rd : σ → Nat → Nat → α)
    (wr : σ → Nat → Nat → α → σ) (m n : Nat)
    (hwr : ∀ s r c v, Inv s → r < m → c < n → Inv (wr s r c v))
    (hrw : ∀ s r c r' c' v, Inv s → r < m → c < n → r' < m → c' < n →
      rd (wr s r c v) r' c' = if r' = r ∧ c' = c then v else rd s r' c')
    (upd : Nat → Nat → α → α) (body : Nat → Nat → σ → σ)
    (hbody : ∀ r c s, Inv s → r < m → c < n → body r c s = wr s r c (upd r c (rd s r c)))
    (s0 : σ) (h0 : Inv s0) :
    Inv (forUp 0 m (fun r s => forUp 0 n (fun c s => body r c s) s) s0) ∧
    ∀ r c, r < m → c < n →
      rd (forUp 0 m (fun r s => forUp 0 n (fun c s => body r c s) s) s0) r c =
        upd r c (rd s0 r c) := by
  have key := forUp_inv (fun r s => forUp 0 n (fun c s => body r c s) s)
    (fun j s => Inv s ∧ ∀ r' c', r' < m → c' < n →
      rd s r' c' = if r' < j then upd r' c' (rd s0 r' c') else rd s0 r' c')
    0 m s0 (Nat.zero_le m)
    ⟨h0, fun r' c' _ _ => by rw [if_neg (by omega)]⟩
    (by
      intro j s _ hjm ⟨hI, hcells⟩
      obtain ⟨hI', hrow⟩ := grid_row_update Inv rd wr m n hwr hrw upd body hbody j hjm s hI
      refine ⟨hI', ?_⟩
      intro r' c' hr' hc'
      rw [hrow r' c' hr' hc']
      by_cases e : r' = j
      · have hsj : rd s j c' = rd s0 j c' := by
          rw [hcells j c' hjm hc']
          exact if_neg (by omega)
        rw [if_pos e, hsj, if_pos (by omega), e]
      · rw [if_neg e, hcells r' c' hr' hc']
        by_cases e2 : r' < j
        · rw [if_pos e2, if_pos (by omega)]
        · rw [if_neg e2, if_neg (by omega)])
  refine ⟨key.1, ?_⟩
  intro r c hr hc
  rw [key.2 r c hr hc, if_pos hr]

/-! ## multiply_mkl: the cells of the result -/

theorem list_set_getD {C : List Int} {M N i j i' j' : Nat} (hC : C.length = M * N)
    (hi : i < M) (hj : j < N) (hj' : j' < N) (v : Int) :
    (C.set (i * N + j) v).getD (i' * N + j') 0 =
      if i' = i ∧ j' = j then v else C.getD (i' * N + j') 0 := by
  have hlt : i * N + j < C.length := by
    have := index_lt (m := N) (n := M) hj hi
    rw [hC, Nat.mul_comm M N]; omega
  by_cases e : i' = i ∧ j' = j
  · obtain ⟨e1, e2⟩ := e
    subst e1 e2
    simp [hlt]
  · have hne : i * N + j ≠ i' * N + j' := by
      intro heq
      obtain ⟨a, b⟩ := index_inj hj hj' (show j + i * N = j' + i' * N by omega)
      exact e ⟨b.symm, a.symm⟩
    simp [e, List.getElem?_set_ne hne]

/-- The reference `dgemm` on row-major operands without transposition, with
`ldc = N`: cell `(i, j)` of the result is
`alpha * sum_p A[i * lda + p] * B[p * ldb + j] + beta * C[i * N + j]`. -/
theorem dgemm_row_major (M N K : Nat) (alpha beta : Int) (A : List Int) (lda : Nat)
    (B : List Int) (ldb : Nat) (C : List Int) (hC : C.length = M * N) :
    (cblas_dgemm .CblasRowMajor .CblasNoTrans .CblasNoTrans M N K alpha A lda B ldb
      beta C N).length = M * N ∧
    ∀ i j, i < M → j < N →
      (cblas_dgemm .CblasRowMajor .CblasNoTrans .CblasNoTrans M N K alpha A lda B ldb
        beta C N).getD (i * N + j) 0 =
      alpha * (∑ p ∈ Finset.range K, A.getD (i * lda + p) 0 * B.getD (p * ldb + j) 0) +
        beta * C.getD (i * N + j) 0 := by
  have key := grid_update (fun (C : List Int) => C.length = M * N)
    (fun C i j => C.getD (i * N + j) 0) (fun C i j v => C.set (i * N + j) v) M N
    (fun s r c v hI _ _ => by simpa using hI)
    (fun s r c r' c' v hI hr hc _ hc' => list_set_getD hI hr hc hc' v)
    (fun i j old => alpha *
      (∑ p ∈ Finset.range K, A.getD (i * lda + p) 0 * B.getD (p * ldb + j) 0) + beta * old)
    (fun i j C =>
      let acc := forUp 0 K
        (fun p acc => acc + blas_op .CblasRowMajor .CblasNoTrans A lda i p *
          blas_op .CblasRowMajor .CblasNoTrans B ldb p j) 0
      C.set (blas_offset .CblasRowMajor N i j)
        (alpha * acc + beta * blas_elem .CblasRowMajor C N i j))
    (fun i j C _ _ _ => by
      simp only [forUp_sum, zero_add, blas_op, blas_elem, blas_offset, Finset.range_eq_Ico])
    C hC
  exact key

theorem mkl_cells (junk : Nat → Int) (mat1 mat2 : Matrix)
    (hb : mat1.nrow * mat2.ncol < SIZE_MOD) :
    (multiply_mkl junk mat1 mat2).m_nrow = mat1.nrow ∧
    (multiply_mkl junk mat1 mat2).m_ncol = mat2.ncol ∧
    (multiply_mkl junk mat1 mat2).m_buffer.length = mat1.nrow * mat2.ncol ∧
    ∀ i j, i < mat1.nrow → j < mat2.ncol →
      (multiply_mkl junk mat1 mat2).m_buffer.getD (i * mat2.ncol + j) 0 =
        ∑ p ∈ Finset.range mat1.ncol,
          mat1.m_buffer.getD (i * mat1.ncol + p) 0 * mat2.m_buffer.getD (p * mat2.ncol + j) 0 := by
  obtain ⟨hlen, hcells⟩ := dgemm_row_major mat1.nrow mat2.ncol mat1.ncol 1 0 mat1.data
    mat1.ncol mat2.data mat2.ncol (Matrix.new junk mat1.nrow mat2.ncol).data
    (new_shape junk mat1.nrow mat2.ncol hb).2.2.1
  refine ⟨rfl, rfl, hlen, ?_⟩
  intro i j hi hj
  have e := hcells i j hi hj
  rw [one_mul, zero_mul, add_zero] at e
  exact e

/-! ## Checked loops that never stop agree with the unchecked ones -/

theorem forUpAuxC_ok {σ : Type} (Q : σ → Prop) (body : Nat → σ → σ)
    (bodyC : Nat → σ → Except Failure σ) :
    ∀ (n i : Nat) (s : σ), Q s →
      (∀ j s, i ≤ j → j < i + n → Q s → bodyC j s = .ok (body j s) ∧ Q (body j s)) →
      forUpAuxC bodyC n i s = .ok (forUpAux body n i s) ∧ Q (forUpAux body n i s) := by
  intro n
  induction n with
  | zero => intro i s hQ _; exact ⟨rfl, hQ⟩
  | succ n ih =>
    intro i s hQ h
    obtain ⟨e, q⟩ := h i s (Nat.le_refl i) (by omega) hQ
    simp only [forUpAuxC, forUpAux, e]
    exact ih (i + 1) (body i s) q (fun j s hj hlt hs => h j s (by omega) (by omega) hs)

/-- A checked unit-step loop whose body never stops on states satisfying `Q`
computes what the unchecked loop computes. -/
theorem forUpC_ok {σ : Type} (Q : σ → Prop) (body : Nat → σ → σ)
    (bodyC : Nat → σ → Except Failure σ) (lo hi : Nat) (s : σ) (hQ : Q s)
    (h : ∀ j s, lo ≤ j → j < hi → Q s → bodyC j s = .ok (body j s) ∧ Q (body j s)) :
    forUpC lo hi bodyC s = .ok (forUp lo hi body s) ∧ Q (forUp lo hi body s) :=
  forUpAuxC_ok Q body bodyC (hi - lo) lo s hQ
    (fun j s hj hlt hs => h j s hj (by omega) hs)

/-- A checked stepping loop whose body never stops on states satisfying `Q`
computes what the unchecked loop computes, for every amount of fuel. -/
theorem forStepC_ok {σ : Type} (Q : σ → Prop) (body : Nat → σ → Option σ)
    (bodyC : Nat → σ → Option (Except Failure σ)) (bound step : Nat)
    (h : ∀ i s, i < bound → Q s →
      bodyC i s = (body i s).map Except.ok ∧ ∀ s', body i s = some s' → Q s') :
    ∀ (fuel i : Nat) (s : σ), Q s →
      forStepC fuel i bound step bodyC s = (forStep fuel i bound step body s).map Except.ok ∧
      ∀ s', forStep fuel i bound step body s = some s' → Q s' := by
  intro fuel
  induction fuel with
  | zero =>
    intro i s _
    refine ⟨rfl, ?_⟩
    intro s' hs'
    simp [forStep] at hs'
  | succ fuel ih =>
    intro i s hQ
    unfold forStepC forStep
    by_cases hlt : i < bound
    · obtain ⟨e, q⟩ := h i s hlt hQ
      cases hb : body i s with
      | none =>
        rw [hb] at e
        simp [if_pos hlt, e]
      | some s1 =>
        rw [hb] at e
        simp only [if_pos hlt, e, Option.map_some']
        exact ih (i + step) s1 (q s1 hb)
    · simp only [if_neg hlt, Option.map_some', true_and]
      intro s' hs'
      have e : s = s' := by simpa using hs'
      exact e ▸ hQ

theorem tile_accumulate_checked_ok (mat1 mat2 : Matrix) {tile_i tile_k tile_j : Nat} (v : Int)
    (h1 : tile_i < mat1.m_nrow) (h2 : tile_j < mat1.m_ncol) (h3 : tile_j < mat2.m_nrow)
    (h4 : tile_k < mat2.m_ncol) :
    tile_accumulate_checked mat1 mat2 tile_i tile_k tile_j v =
      .ok (v + mat1.read tile_i tile_j * mat2.read tile_j tile_k) := by
  simp [tile_accumulate_checked, Matrix.read_checked, h1, h2, h3, h4]

theorem tile_store_checked_ok (ret : Matrix) {tile_i tile_k : Nat} (v : Int)
    (h1 : tile_i < ret.m_nrow) (h2 : tile_k < ret.m_ncol) :
    tile_store_checked ret tile_i tile_k v =
      .ok (ret.write tile_i tile_k (ret.read tile_i tile_k + v)) := by
  simp [tile_store_checked, Matrix.read_checked, Matrix.write_checked, h1, h2]

/-- A block whose ranges lie inside the operands is processed without any
access outside a matrix. -/
theorem tile_block_checked_ok (mat1 mat2 ret : Matrix)
    (hQ : ret.m_nrow = mat1.m_nrow ∧ ret.m_ncol = mat2.m_ncol)
    (i index_i k index_k j index_j : Nat) (hi : index_i ≤ mat1.m_nrow)
    (hk : index_k ≤ mat2.m_ncol) (hj1 : index_j ≤ mat1.m_ncol) (hj2 : index_j ≤ mat2.m_nrow) :
    tile_block_checked mat1 mat2 i index_i k index_k j index_j ret =
      .ok (tile_block mat1 mat2 i index_i k index_k j index_j ret) ∧
    ((tile_block mat1 mat2 i index_i k index_k j index_j ret).m_nrow = mat1.m_nrow ∧
      (tile_block mat1 mat2 i index_i k index_k j index_j ret).m_ncol = mat2.m_ncol) := by
  unfold tile_block_checked tile_block
  refine forUpC_ok (fun S : Matrix => S.m_nrow = mat1.m_nrow ∧ S.m_ncol = mat2.m_ncol)
    _ _ i index_i ret hQ ?_
  intro ti S _ hti hS
  refine forUpC_ok (fun S : Matrix => S.m_nrow = mat1.m_nrow ∧ S.m_ncol = mat2.m_ncol)
    _ _ k index_k S hS ?_
  intro tk S' _ htk hS'
  have hacc := forUpC_ok (fun _ : Int => True)
    (fun tile_j v => v + mat1.read ti tile_j * mat2.read tile_j tk)
    (fun tile_j v => tile_accumulate_checked mat1 mat2 ti tk tile_j v) j index_j 0 trivial
    (fun tj v _ htj _ =>
      ⟨tile_accumulate_checked_ok mat1 mat2 v (by omega) (by omega) (by omega) (by omega),
        trivial⟩)
  simp only [hacc.1]
  rw [tile_store_checked_ok S' _ (by omega) (by omega)]
  exact ⟨rfl, hS'⟩

theorem clamp_le (a T K : Nat) : (if a + T < K then a + T else K) ≤ K := by
  split_ifs <;> omega

/-- The block loops with checked accesses agree with the unchecked block loops
for every amount of fuel and every tile size. -/
theorem tile_loops_checked_ok (mat1 mat2 : Matrix) (hk : mat1.m_ncol = mat2.m_nrow)
    (t fuel : Nat) (ret : Matrix)
    (hQ : ret.m_nrow = mat1.m_nrow ∧ ret.m_ncol = mat2.m_ncol) :
    tile_loops_checked fuel mat1 mat2 t ret =
      (tile_loops fuel mat1 mat2 t ret).map Except.ok := by
  unfold tile_loops_checked tile_loops
  simp only [Matrix.nrow, Matrix.ncol]
  refine (forStepC_ok (fun S : Matrix => S.m_nrow = mat1.m_nrow ∧ S.m_ncol = mat2.m_ncol)
    _ _ mat1.m_nrow t ?_ fuel 0 ret hQ).1
  intro i S _ hS
  refine forStepC_ok (fun S : Matrix => S.m_nrow = mat1.m_nrow ∧ S.m_ncol = mat2.m_ncol)
    _ _ mat2.m_ncol t ?_ fuel 0 S hS
  intro k S' _ hS'
  refine forStepC_ok (fun S : Matrix => S.m_nrow = mat1.m_nrow ∧ S.m_ncol = mat2.m_ncol)
    _ _ mat1.m_nrow t ?_ fuel 0 S' hS'
  intro j S'' _ hS''
  obtain ⟨e, q⟩ := tile_block_checked_ok mat1 mat2 S'' hS''
    i (if i + t < mat1.m_nrow then i + t else mat1.m_nrow)
    k (if k + t < mat2.m_ncol then k + t else mat2.m_ncol)
    j (if j + t < mat1.m_ncol then j + t else mat1.m_ncol)
    (clamp_le _ _ _) (clamp_le _ _ _) (clamp_le _ _ _) (hk ▸ clamp_le _ _ _)
  refine ⟨by rw [e]; rfl, ?_⟩
  intro s' hs'
  have e' : tile_block mat1 mat2 i (if i + t < mat1.m_nrow then i + t else mat1.m_nrow)
      k (if k + t < mat2.m_ncol then k + t else mat2.m_ncol)
      j (if j + t < mat1.m_ncol then j + t else mat1.m_ncol) S'' = s' := by
    simpa using hs'
  exact e' ▸ q

/-- For a compatible pair, `multiply_tile` with checked accesses and
`multiply_tile` have the same outcome, for every amount of fuel and every tile
size. -/
theorem multiply_tile_checked_ok (junk : Nat → Int) (mat1 mat2 : Matrix)
    (hk : mat1.ncol = mat2.nrow) (t fuel : Nat) :
    ∃ o : Option Matrix, multiply_tile fuel junk mat1 mat2 t = o.map Except.ok ∧
      multiply_tile_checked fuel junk mat1 mat2 t = o.map Except.ok := by
  have hinit := forUpC_ok (fun S : Matrix => S.m_nrow = mat1.m_nrow ∧ S.m_ncol = mat2.m_ncol)
    (fun i ret => forUp 0 mat2.ncol (fun j ret => ret.write i j 0) ret)
    (fun i ret => forUpC 0 mat2.ncol (fun j ret => ret.write_checked i j 0) ret)
    0 mat1.nrow (Matrix.new junk mat1.nrow mat2.ncol) ⟨rfl, rfl⟩
    (fun i S _ hi hS =>
      forUpC_ok (fun S : Matrix => S.m_nrow = mat1.m_nrow ∧ S.m_ncol = mat2.m_ncol)
        (fun j ret => ret.write i j 0) (fun j ret => ret.write_checked i j 0)
        0 mat2.ncol S hS
        (fun j S' _ hj hS' => by
          have h1 : i < S'.m_nrow := by rw [hS'.1]; exact hi
          have h2 : j < S'.m_ncol := by rw [hS'.2]; exact hj
          exact ⟨by simp [Matrix.write_checked, h1, h2], hS'⟩))
  obtain ⟨e, q⟩ := hinit
  refine ⟨tile_loops fuel mat1 mat2 t (forUp 0 mat1.nrow (fun i ret =>
      forUp 0 mat2.ncol (fun j ret => ret.write i j 0) ret)
      (Matrix.new junk mat1.nrow mat2.ncol)), ?_, ?_⟩
  · unfold multiply_tile
    rw [if_neg (by simpa using hk)]
    dsimp only
    generalize tile_loops fuel mat1 mat2 t (forUp 0 mat1.nrow (fun i ret =>
      forUp 0 mat2.ncol (fun j ret => ret.write i j 0) ret)
      (Matrix.new junk mat1.nrow mat2.ncol)) = o
    cases o <;> rfl
  · unfold multiply_tile_checked
    rw [if_neg (by simpa using hk)]
    simp only [e]
    exact tile_loops_checked_ok mat1 mat2 hk t fuel _ q

/-! ## The copy constructor in the free store -/

theorem forUp_id {σ : Type} (body : Nat → σ → σ) (hbody : ∀ i s, body i s = s)
    (lo hi : Nat) (s : σ) : forUp lo hi body s = s := by
  rcases Nat.lt_or_ge hi lo with h | h
  · exact forUp_ge _ _ _ _ (Nat.le_of_lt h)
  · refine forUp_inv body (fun _ s' => s' = s) lo hi s h rfl ?_
    intro j s' _ _ hs'
    rw [hbody, hs']

theorem heap_getD_set_ne (s : Heap) {p q : Nat} (x : List Double) (hne : p ≠ q) :
    (s.set p x).getD q [] = s.getD q [] := by
  simp [List.getElem?_set_ne hne]

theorem heap_getD_set_self (s : Heap) {p : Nat} (x : List Double) (hp : p < s.length) :
    (s.set p x).getD p [] = x := by
  simp [hp]

/-- Reading a column-major array after one in-bounds cell was set. -/
theorem getD_set_cell {α : Type} (l : List α) (d v : α) {m n r c r' c' : Nat}
    (hlen : l.length = m * n) (hr : r < m) (hc : c < n) (hr' : r' < m) :
    (l.set (r + c * m) v).getD (r' + c' * m) d =
      if r' = r ∧ c' = c then v else l.getD (r' + c' * m) d := by
  have hlt : r + c * m < l.length := by rw [hlen]; exact index_lt hr hc
  by_cases e : r' = r ∧ c' = c
  · obtain ⟨e1, e2⟩ := e
    subst e1 e2
    simp [hlt]
  · have hne : r + c * m ≠ r' + c' * m := by
      intro heq
      obtain ⟨a, b⟩ := index_inj hr hr' heq
      exact e ⟨a.symm, b.symm⟩
    simp [e, List.getElem?_set_ne hne]

/-- An object that is live in `h` has the same array in every extension of `h`. -/
theorem deref_extends {h s : Heap} {m n : Nat} (hs : Extends h m n s) {M : MatrixPtr}
    (hM : M.Valid h) : M.deref s = M.deref h := by
  unfold MatrixPtr.deref
  unfold MatrixPtr.Valid at hM
  cases hb : M.m_buffer with
  | none => rfl
  | some q =>
    rw [hb] at hM
    exact hs.2.1 q hM.1

theorem write_extends {h s : Heap} {m n : Nat} (hs : Extends h m n s) {C : MatrixPtr}
    (hC : C.m_buffer = some h.length) (r c : Nat) (v : Double) :
    Extends h m n (C.write s r c v) := by
  obtain ⟨h1, h2, h3⟩ := hs
  unfold MatrixPtr.write
  rw [hC]
  refine ⟨by simpa using h1, ?_, ?_⟩
  · intro q hq
    rw [heap_getD_set_ne s _ (by omega), h2 q hq]
  · rw [heap_getD_set_self s _ (by omega)]
    simpa using h3

theorem deref_write {h s : Heap} {m n : Nat} (hs : Extends h m n s) {C : MatrixPtr}
    (hC : C.m_buffer = some h.length) (r c : Nat) (v : Double) :
    C.deref (C.write s r c v) = (C.deref s).set (C.index r c) v := by
  unfold MatrixPtr.deref MatrixPtr.write
  rw [hC]
  exact heap_getD_set_self s _ (by have := hs.1; omega)

/-- A write through an object that owns the array at `h.length` leaves every
object that is live in `h` as it is. -/
theorem deref_write_other {h s : Heap} {m n : Nat} (hs : Extends h m n s) {C M : MatrixPtr}
    (hC : C.m_buffer = some h.length) (hM : M.Valid h) (r c : Nat) (v : Double) :
    M.deref (C.write s r c v) = M.deref h := by
  rw [deref_extends (write_extends hs hC r c v) hM]

theorem index_eq_heap {C : MatrixPtr} {m n r c : Nat} (hm : C.m_nrow = m)
    (hb : m * n < SIZE_MOD) (hr : r < m) (hc : c < n) : C.index r c = r + c * m := by
  unfold MatrixPtr.index
  rw [hm]
  exact Nat.mod_eq_of_lt (Nat.lt_trans (index_lt hr hc) hb)

theorem read_write_heap {h s : Heap} {m n : Nat} (hs : Extends h m n s) {C : MatrixPtr}
    (hC : C.m_buffer = some h.length) (hm : C.m_nrow = m) (hb : m * n < SIZE_MOD)
    {r c r' c' : Nat} (hr : r < m) (hc : c < n) (hr' : r' < m) (hc' : c' < n) (v : Double) :
    C.read (C.write s r c v) r' c' = if r' = r ∧ c' = c then v else C.read s r' c' := by
  have hlen : (C.deref s).length = m * n := by
    unfold MatrixPtr.deref
    rw [hC]
    exact hs.2.2
  unfold MatrixPtr.read
  rw [deref_write hs hC, index_eq_heap hm hb hr hc, index_eq_heap hm hb hr' hc']
  exact getD_set_cell _ _ v hlen hr hc hr'

/-- The element loops of the copy constructor, started on the free store that
`reset_buffer` leaves: every cell of the new array receives the cell of the
original, and the free store below the new array is untouched. -/
theorem copy_loops (h : Heap) (M C : MatrixPtr) (blk : List Double) (hM : M.Valid h)
    (hC : C.m_buffer = some h.length) (hm : C.m_nrow = M.m_nrow) (hn : C.m_ncol = M.m_ncol)
    (hblk : blk.length = M.m_nrow * M.m_ncol) (hb : M.m_nrow * M.m_ncol < SIZE_MOD) :
    Extends h M.m_nrow M.m_ncol
      (forUp 0 C.m_nrow (fun i s =>
        forUp 0 C.m_ncol (fun j s => C.write s i j (M.read s i j)) s) (h ++ [blk])) ∧
    ∀ i j, i < M.m_nrow → j < M.m_ncol →
      C.read (forUp 0 C.m_nrow (fun i s =>
        forUp 0 C.m_ncol (fun j s => C.write s i j (M.read s i j)) s) (h ++ [blk])) i j =
      M.read h i j := by
  have h0 : Extends h M.m_nrow M.m_ncol (h ++ [blk]) := by
    refine ⟨by simp, ?_, ?_⟩
    · intro q hq
      simp [List.getElem?_append_left hq]
    · simpa using hblk
  have key := grid_update (Extends h M.m_nrow M.m_ncol)
    (fun s i j => C.read s i j) (fun s i j v => C.write s i j v) M.m_nrow M.m_ncol
    (fun s r c v hI _ _ => write_extends hI hC r c v)
    (fun s r c r' c' v hI hr hc hr' hc' => read_write_heap hI hC hm hb hr hc hr' hc' v)
    (fun i j _ => M.read h i j)
    (fun i j s => C.write s i j (M.read s i j))
    (fun i j s hI _ _ => by
      have e : M.read s i j = M.read h i j := by
        unfold MatrixPtr.read
        rw [deref_extends hI hM]
      beta_reduce
      rw [e])
    (h ++ [blk]) h0
  rw [hm, hn]
  exact key

theorem reset_buffer_empty (junk : Nat → Double) (h : Heap) (a b m n : Nat)
    (hz : m * n % SIZE_MOD = 0) :
    MatrixPtr.reset_buffer junk h { m_nrow := a, m_ncol := b, m_buffer := none } m n =
      (h, { m_nrow := m, m_ncol := n, m_buffer := none }) := by
  simp [MatrixPtr.reset_buffer, hz]

theorem reset_buffer_fresh (junk : Nat → Double) (h : Heap) (a b m n : Nat)
    (hz : m * n % SIZE_MOD ≠ 0) :
    MatrixPtr.reset_buffer junk h { m_nrow := a, m_ncol := b, m_buffer := none } m n =
      (h ++ [(List.range (m * n % SIZE_MOD)).map junk],
        { m_nrow := m, m_ncol := n, m_buffer := some h.length }) := by
  simp [MatrixPtr.reset_buffer, hz]

/-- The copy constructor on a matrix for which no array is allocated: the free
store is left as it is. -/
theorem copy_empty (junk : Nat → Double) (h : Heap) (M : MatrixPtr)
    (hz : M.m_nrow * M.m_ncol % SIZE_MOD = 0) :
    MatrixPtr.copy junk h M =
      (h, { m_nrow := M.m_nrow, m_ncol := M.m_ncol, m_buffer := none }) := by
  unfold MatrixPtr.copy
  rw [reset_buffer_empty junk h _ _ _ _ hz]
  simp only
  rw [forUp_id]
  intro i s
  rw [forUp_id]
  intro j s'
  rfl

/-- The copy constructor on a live matrix with cells: the new object owns a
fresh array, at the address `h.length`. -/
theorem copy_fresh (junk : Nat → Double) (h : Heap) (M : MatrixPtr) (hM : M.Valid h)
    (hb : M.m_nrow * M.m_ncol < SIZE_MOD) (hz : M.m_nrow * M.m_ncol ≠ 0) :
    (MatrixPtr.copy junk h M).2 =
      { m_nrow := M.m_nrow, m_ncol := M.m_ncol, m_buffer := some h.length } ∧
    Extends h M.m_nrow M.m_ncol (MatrixPtr.copy junk h M).1 ∧
    ∀ i j, i < M.m_nrow → j < M.m_ncol →
      (MatrixPtr.copy junk h M).2.read (MatrixPtr.copy junk h M).1 i j = M.read h i j := by
  have e : M.m_nrow * M.m_ncol % SIZE_MOD = M.m_nrow * M.m_ncol := Nat.mod_eq_of_lt hb
  unfold MatrixPtr.copy
  rw [reset_buffer_fresh junk h _ _ _ _ (by rw [e]; exact hz), e]
  simp only
  obtain ⟨hext, hcells⟩ := copy_loops h M
    { m_nrow := M.m_nrow, m_ncol := M.m_ncol, m_buffer := some h.length }
    ((List.range (M.m_nrow * M.m_ncol)).map junk) hM rfl rfl rfl (by simp) hb
  exact ⟨trivial, hext, hcells⟩

/-- For two distinct objects `operator==` is true exactly when the dimensions
agree and no in-bounds pair of cells is found different by `!=`. -/
theorem operator_eq_heap_iff (h : Heap) (X Y : MatrixPtr) :
    X.operator_eq h Y false = true ↔
      X.m_nrow = Y.m_nrow ∧ X.m_ncol = Y.m_ncol ∧
        ∀ i j, i < X.m_nrow → j < X.m_ncol →
          Double.ne (X.read h i j) (Y.read h i j) = false := by
  unfold MatrixPtr.operator_eq
  by_cases hd : X.m_nrow ≠ Y.m_nrow ∨ X.m_ncol ≠ Y.m_ncol
  · simp only [Bool.false_eq_true, if_false, if_pos hd]
    constructor
    · intro hf; exact absurd hf (by simp)
    · intro ⟨a, b, _⟩
      rcases hd with hd | hd
      · exact absurd a hd
      · exact absurd b hd
  · have h1 : X.m_nrow = Y.m_nrow := by
      by_contra hne; exact hd (Or.inl hne)
    have h2 : X.m_ncol = Y.m_ncol := by
      by_contra hne; exact hd (Or.inr hne)
    simp only [Bool.false_eq_true, if_false]
    rw [if_neg hd]
    simp only [List.all_eq_true, List.mem_range, Bool.not_eq_true', h1, h2, true_and]
    exact ⟨fun hh i j hi hj => hh i hi j hj, fun hh i hi j hj => hh i j hi hj⟩

theorem double_ne_self {x : Double} (hx : x ≠ .nan) : Double.ne x x = false := by
  cases x with
  | num a => simp [Double.ne]
  | nan => exact absurd rfl hx

theorem double_ne_iff {x y : Double} (hx : x ≠ .nan) (hy : y ≠ .nan) :
    Double.ne x y = false ↔ x = y := by
  cases x with
  | nan => exact absurd rfl hx
  | num a =>
    cases y with
    | nan => exact absurd rfl hy
    | num b => simp [Double.ne]

/-! ## What the routines do to the dimensions and to the length of the buffer -/

/-- A loop from `0` that advances by `step ≥ 1` and whose body always finishes,
finishes. -/
theorem forStep_returns {σ : Type} (body : Nat → σ → Option σ) (bound step fuel : Nat)
    (hstep : 1 ≤ step) (hfuel : bound < fuel) (hbody : ∀ i s, ∃ s', body i s = some s')
    (s : σ) : ∃ s', forStep fuel 0 bound step body s = some s' := by
  obtain ⟨r, hr, _⟩ := forStep_zero_inv body (fun _ _ => True) bound step fuel s hstep hfuel
    trivial (fun q s _ _ => by
      obtain ⟨s', hs'⟩ := hbody (q * step) s
      exact ⟨s', hs', trivial⟩)
  exact ⟨r, hr⟩

/-- With a tile size of at least one the block loops finish, whatever the
matrix they work on. -/
theorem tile_loops_returns (mat1 mat2 : Matrix) {t fuel : Nat} (ht : 1 ≤ t)
    (hf1 : mat1.nrow < fuel) (hf2 : mat2.ncol < fuel) (ret : Matrix) :
    ∃ ret', tile_loops fuel mat1 mat2 t ret = some ret' := by
  unfold tile_loops
  refine forStep_returns _ _ _ _ ht hf1 ?_ ret
  intro i S
  refine forStep_returns _ _ _ _ ht hf2 ?_ S
  intro k S'
  refine forStep_returns _ _ _ _ ht hf1 ?_ S'
  intro j S''
  exact ⟨_, rfl⟩

/-! ## The claims -/

/-- C2 (evaluation at a failing input): for the `1 × 2` matrix `[[1, 2]]`, the
`2 × 1` matrix `[[3], [4]]` and tile size `1`, `multiply_tile` returns `[[3]]`
whereas `multiply_naive` returns `[[11]]`: the contraction-block loop stops at
`mat1.nrow() = 1` and never reaches the contraction index `1`. -/
theorem multiply_tile_differs_from_naive (junk ja jb : Nat → Int) :
    (∃ ret, multiply_tile 2 junk (ofRows ja 1 2 [[1, 2]]) (ofRows jb 2 1 [[3], [4]]) 1
        = some (.ok ret) ∧ toRows ret = [[3]]) ∧
    toRows (multiply_naive junk (ofRows ja 1 2 [[1, 2]]) (ofRows jb 2 1 [[3], [4]]))
      = [[11]] :=
  ⟨⟨_, rfl, rfl⟩, rfl⟩

/-- C3 (evaluation at a failing input): for `a = [[1, 2], [3, 4]]` and
`b = [[5, 6], [7, 8]]`, `multiply_mkl(a, b)` read through `operator()` is
`[[23, 34], [31, 46]]`, which is the product `b * a`, whereas
`multiply_naive(a, b)` is `[[19, 22], [43, 50]]`. -/
theorem multiply_mkl_differs_from_naive (junk ja jb : Nat → Int) :
    toRows (multiply_mkl junk (ofRows ja 2 2 [[1, 2], [3, 4]])
      (ofRows jb 2 2 [[5, 6], [7, 8]])) = [[23, 34], [31, 46]] ∧
    toRows (multiply_naive junk (ofRows ja 2 2 [[1, 2], [3, 4]])
      (ofRows jb 2 2 [[5, 6], [7, 8]])) = [[19, 22], [43, 50]] := by
  rw [ofRows_a, ofRows_b]
  constructor
  · simp [toRows, multiply_mkl, cblas_dgemm, forUp, forUpAux, blas_op, blas_elem, blas_offset,
      Matrix.new, Matrix.reset_buffer, Matrix.nrow, Matrix.ncol, Matrix.data, Matrix.read,
      Matrix.index, SIZE_MOD, List.range_succ]
  · rfl

/-- C6: for `a = [[1, 2], [3, 4]]` and `b = [[5, 6], [7, 8]]`, both filled
through `operator()(row, col)`, `multiply_naive(a, b)` and
`multiply_tile(a, b, t)` for `t` in `{1, 2, 3}` return the `2 × 2` matrix
`[[19, 22], [43, 50]]`. -/
theorem scenario_two_by_two (junk ja jb : Nat → Int) (t fuel : Nat)
    (ht : t = 1 ∨ t = 2 ∨ t = 3) (hfuel : 2 < fuel) :
    toRows (multiply_naive junk (ofRows ja 2 2 [[1, 2], [3, 4]])
      (ofRows jb 2 2 [[5, 6], [7, 8]])) = [[19, 22], [43, 50]] ∧
    ∃ ret, multiply_tile fuel junk (ofRows ja 2 2 [[1, 2], [3, 4]])
        (ofRows jb 2 2 [[5, 6], [7, 8]]) t = some (.ok ret) ∧
      ret.nrow = 2 ∧ ret.ncol = 2 ∧ toRows ret = [[19, 22], [43, 50]] := by
  rw [ofRows_a, ofRows_b]
  refine ⟨rfl, ?_⟩
  obtain ⟨ret, hret, hS, hcells⟩ := tile_cells junk ⟨2, 2, [1, 3, 2, 4]⟩ ⟨2, 2, [5, 7, 6, 8]⟩
    (show 1 ≤ t by omega) rfl hfuel hfuel (by decide)
  refine ⟨ret, hret, hS.1, hS.2.1, ?_⟩
  have hcov : min (nblocks 2 t * t) 2 = 2 := by
    rcases ht with h | h | h <;> subst h <;> decide
  have hr : ∀ r c, r < 2 → c < 2 → ret.read r c =
      dot ⟨2, 2, [1, 3, 2, 4]⟩ ⟨2, 2, [5, 7, 6, 8]⟩ 2 r c := by
    intro r c hr hc
    have e := hcells r c hr hc
    simp only [Matrix.nrow, Matrix.ncol, hcov] at e
    exact e
  rw [toRows_two_by_two hS, hr 0 0 (by decide) (by decide), hr 0 1 (by decide) (by decide),
    hr 1 0 (by decide) (by decide), hr 1 1 (by decide) (by decide)]
  simp [dot, Finset.sum_range_succ, Matrix.read, Matrix.index, SIZE_MOD]

/-- Witness for C6 at tile size `1`. -/
theorem scenario_two_by_two_witness :
    toRows (multiply_naive (fun _ => 7) (ofRows (fun _ => 8) 2 2 [[1, 2], [3, 4]])
      (ofRows (fun _ => 9) 2 2 [[5, 6], [7, 8]])) = [[19, 22], [43, 50]] ∧
    ∃ ret, multiply_tile 3 (fun _ => 7) (ofRows (fun _ => 8) 2 2 [[1, 2], [3, 4]])
        (ofRows (fun _ => 9) 2 2 [[5, 6], [7, 8]]) 1 = some (.ok ret) ∧
      ret.nrow = 2 ∧ ret.ncol = 2 ∧ toRows ret = [[19, 22], [43, 50]] :=
  scenario_two_by_two (fun _ => 7) (fun _ => 8) (fun _ => 9) 1 3 (Or.inl rfl) (by decide)

/-- C7: for an `m × k` matrix `A`, `multiply_naive(A, I_k) == A` and
`multiply_naive(I_m, A) == A`, where `I_d` is the `d × d` matrix with `1` on
the diagonal and `0` elsewhere. -/
theorem multiply_naive_identity (junk : Nat → Int) (A Ik Im : Matrix) (hA : A.WF)
    (hIk : IsIdentity Ik A.ncol) (hIm : IsIdentity Im A.nrow) :
    (multiply_naive junk A Ik).operator_eq A false = true ∧
    (multiply_naive junk Im A).operator_eq A false = true := by
  obtain ⟨hS1, hc1⟩ := hIk
  obtain ⟨hS2, hc2⟩ := hIm
  have hn : Ik.ncol = A.ncol := hS1.2.1
  have hm : Im.nrow = A.nrow := hS2.1
  have hk : Im.ncol = A.nrow := hS2.2.1
  constructor
  · obtain ⟨⟨a, b, _⟩, d⟩ := naive_cells junk A Ik (by rw [hn]; exact hA.2)
    rw [hn] at b d
    rw [operator_eq_iff]
    refine ⟨a, b, ?_⟩
    intro i j hi hj
    rw [a] at hi
    rw [b] at hj
    rw [d i j hi hj]
    exact dot_identity_right A _ hc1 i j hj
  · obtain ⟨⟨a, b, _⟩, d⟩ := naive_cells junk Im A (by rw [hm]; exact hA.2)
    rw [hm] at a d
    rw [hk] at d
    rw [operator_eq_iff]
    refine ⟨a, b, ?_⟩
    intro i j hi hj
    rw [a] at hi
    rw [b] at hj
    rw [d i j hi hj]
    exact dot_identity_left _ A hc2 i j hi

/-- Witness for C7 at the `1 × 2` matrix `[[1, 2]]`, the identity matrices
being filled through `operator()`. -/
theorem multiply_naive_identity_witness :
    (multiply_naive (fun _ => 7) ⟨1, 2, [1, 2]⟩ (identity (fun _ => 8) 2)).operator_eq
      ⟨1, 2, [1, 2]⟩ false = true ∧
    (multiply_naive (fun _ => 7) (identity (fun _ => 9) 1) ⟨1, 2, [1, 2]⟩).operator_eq
      ⟨1, 2, [1, 2]⟩ false = true :=
  multiply_naive_identity (fun _ => 7) ⟨1, 2, [1, 2]⟩ (identity (fun _ => 8) 2)
    (identity (fun _ => 9) 1) (by decide) (identity_cells _ 2 (by decide))
    (identity_cells _ 1 (by decide))

/-- C8 (evaluation at a failing input): for the `1 × 2` matrix `A = [[1, 2]]`
and tile size `1`, `multiply_tile(A, I_2, 1)` returns `[[1, 0]]`, which
`operator==` finds different from `A`. -/
theorem multiply_tile_identity_differs (junk ja jI : Nat → Int) :
    ∃ ret, multiply_tile 3 junk (ofRows ja 1 2 [[1, 2]]) (identity jI 2) 1 = some (.ok ret) ∧
      toRows ret = [[1, 0]] ∧ ret.operator_eq (ofRows ja 1 2 [[1, 2]]) false = false :=
  ⟨⟨1, 2, [1, 0]⟩, rfl, rfl, rfl⟩

/-- C13: for a matrix `M`, `buffer_vector()` has length `M.size() = nrow * ncol`
and its entry at position `row + col * nrow` is `M(row, col)` for every
`row < nrow` and `col < ncol`. -/
theorem buffer_vector_spec (M : Matrix) (hM : M.WF) :
    M.buffer_vector.length = M.size ∧ M.size = M.nrow * M.ncol ∧
    M.buffer_vector = M.m_buffer ∧
    ∀ row col, row < M.nrow → col < M.ncol →
      M.buffer_vector[row + col * M.nrow]? = some (M.read row col) := by
  have hS : Shape M M.nrow M.ncol := ⟨rfl, rfl, hM.1, hM.2⟩
  have hsize : M.size = M.nrow * M.ncol := Nat.mod_eq_of_lt hM.2
  have hlen : M.buffer_vector.length = M.size := by simp [Matrix.buffer_vector]
  have hsz : M.m_buffer.length = M.size := by rw [hsize]; exact hM.1
  have hbuf : M.buffer_vector = M.m_buffer := by
    apply List.ext_getElem (by rw [hlen, hsz])
    intro i h1 h2
    simp [Matrix.buffer_vector, List.getElem?_eq_getElem h2]
  refine ⟨hlen, hsize, hbuf, ?_⟩
  intro row col hr hc
  have hlt : row + col * M.nrow < M.m_buffer.length := by
    rw [hM.1]; exact index_lt hr hc
  rw [hbuf]
  unfold Matrix.read
  rw [index_eq hS hr hc, List.getD_eq_getElem _ _ hlt, List.getElem?_eq_getElem hlt]

/-- Witness for C13 at `[[1, 2], [3, 4]]`, cell `(0, 1)`. -/
theorem buffer_vector_spec_witness :
    (Matrix.buffer_vector ⟨2, 2, [1, 3, 2, 4]⟩)[0 + 1 * Matrix.nrow ⟨2, 2, [1, 3, 2, 4]⟩]? =
      some (Matrix.read ⟨2, 2, [1, 3, 2, 4]⟩ 0 1) :=
  (buffer_vector_spec ⟨2, 2, [1, 3, 2, 4]⟩ (by decide)).2.2.2 0 1 (by decide) (by decide)

/-- C18: after the write `M(r, c) = v` at an in-bounds `(r, c)`, a read of
`M(r, c)` returns `v`, every other in-bounds cell reads the value it had
before, and `nrow` and `ncol` are unchanged. -/
theorem write_read_frame (M : Matrix) (hM : M.WF) (r c : Nat) (v : Int)
    (hr : r < M.nrow) (hc : c < M.ncol) :
    (M.write r c v).read r c = v ∧
    (∀ r' c', r' < M.nrow → c' < M.ncol → (r', c') ≠ (r, c) →
      (M.write r c v).read r' c' = M.read r' c') ∧
    (M.write r c v).nrow = M.nrow ∧ (M.write r c v).ncol = M.ncol ∧ (M.write r c v).WF := by
  have hS : Shape M M.nrow M.ncol := ⟨rfl, rfl, hM.1, hM.2⟩
  refine ⟨?_, ?_, rfl, rfl, ?_⟩
  · rw [read_write hS hr hc hr hc, if_pos ⟨rfl, rfl⟩]
  · intro r' c' hr' hc' hne
    rw [read_write hS hr hc hr' hc', if_neg]
    intro ⟨e1, e2⟩
    exact hne (by rw [e1, e2])
  · exact ⟨(write_shape hS r c v).2.2.1, hM.2⟩

/-- Witness for C18: writing `9` into cell `(0, 1)` of `[[1, 2], [3, 4]]`. -/
theorem write_read_frame_witness :
    (Matrix.write ⟨2, 2, [1, 3, 2, 4]⟩ 0 1 9).read 0 1 = 9 ∧
    (Matrix.write ⟨2, 2, [1, 3, 2, 4]⟩ 0 1 9).read 1 1 = Matrix.read ⟨2, 2, [1, 3, 2, 4]⟩ 1 1 ∧
    (Matrix.write ⟨2, 2, [1, 3, 2, 4]⟩ 0 1 9).nrow = Matrix.nrow ⟨2, 2, [1, 3, 2, 4]⟩ :=
  have h := write_read_frame ⟨2, 2, [1, 3, 2, 4]⟩ (by decide) 0 1 9 (by decide) (by decide)
  ⟨h.1, h.2.1 1 1 (by decide) (by decide) (by decide), h.2.2.1⟩

/-- C19 (counterexample): for `nrow = 2^33` and `ncol = 2^32` the product
`nrow * ncol` wraps to `0` in `size_t`, so `reset_buffer` allocates no buffer
although `(0, 0)` is in bounds, and the in-bounds pairs `(0, 2^31)` and `(0, 0)`
have the same offset `0`. -/
theorem index_wraps :
    (Matrix.reset_buffer (fun _ => 0) ⟨0, 0, []⟩ 8589934592 4294967296).m_buffer.length = 0 ∧
    (0 < 8589934592 ∧ 2147483648 < 4294967296) ∧
    (Matrix.reset_buffer (fun _ => 0) ⟨0, 0, []⟩ 8589934592 4294967296).index 0 2147483648 =
      (Matrix.reset_buffer (fun _ => 0) ⟨0, 0, []⟩ 8589934592 4294967296).index 0 0 ∧
    ¬ ((Matrix.reset_buffer (fun _ => 0) ⟨0, 0, []⟩ 8589934592 4294967296).index 0 0 <
      (Matrix.reset_buffer (fun _ => 0) ⟨0, 0, []⟩ 8589934592 4294967296).m_buffer.length) := by
  decide

/-- C19 (amended): for every `nrow` and `ncol` whose product is below `2^64`,
`Matrix::index` maps the in-bounds pairs injectively below `nrow * ncol`, which
is the length of the buffer allocated by `reset_buffer(nrow, ncol)`. -/
theorem index_in_buffer (junk : Nat → Int) (self : Matrix) (nrow ncol : Nat)
    (hb : nrow * ncol < SIZE_MOD) :
    (self.reset_buffer junk nrow ncol).m_buffer.length = nrow * ncol ∧
    (∀ row col, row < nrow → col < ncol →
      row + col * nrow < nrow * ncol ∧
      (self.reset_buffer junk nrow ncol).index row col = row + col * nrow ∧
      (self.reset_buffer junk nrow ncol).index row col <
        (self.reset_buffer junk nrow ncol).m_buffer.length) ∧
    (∀ row col row' col', row < nrow → col < ncol → row' < nrow → col' < ncol →
      (self.reset_buffer junk nrow ncol).index row col =
        (self.reset_buffer junk nrow ncol).index row' col' →
      row = row' ∧ col = col') := by
  have hS : Shape (self.reset_buffer junk nrow ncol) nrow ncol := new_shape junk nrow ncol hb
  refine ⟨hS.2.2.1, ?_, ?_⟩
  · intro row col hr hc
    refine ⟨index_lt hr hc, index_eq hS hr hc, ?_⟩
    rw [index_eq hS hr hc, hS.2.2.1]
    exact index_lt hr hc
  · intro row col row' col' hr hc hr' hc' h
    rw [index_eq hS hr hc, index_eq hS hr' hc'] at h
    exact index_inj hr hr' h

/-- Witness for C19 at `nrow = 2`, `ncol = 3`, cell `(1, 2)`. -/
theorem index_in_buffer_witness :
    1 + 2 * 2 < 2 * 3 ∧
    (Matrix.reset_buffer (fun _ => 7) ⟨0, 0, []⟩ 2 3).index 1 2 = 1 + 2 * 2 ∧
    (Matrix.reset_buffer (fun _ => 7) ⟨0, 0, []⟩ 2 3).index 1 2 <
      (Matrix.reset_buffer (fun _ => 7) ⟨0, 0, []⟩ 2 3).m_buffer.length :=
  (index_in_buffer (fun _ => 7) ⟨0, 0, []⟩ 2 3 (by decide)).2.1 1 2 (by decide) (by decide)

/-- C17: for square `d × d` matrices `a` and `b`, `multiply_mkl(a, b)` read
through `operator()` equals `multiply_naive(b, a)`, the product with the
operands in swapped order (`cblas_dgemm` by its reference row-major
definition). -/
theorem multiply_mkl_swaps_operands (junk junk' : Nat → Int) (a b : Matrix) (d : Nat)
    (_ha : a.WF) (_hb : b.WF) (har : a.nrow = d) (hac : a.ncol = d) (hbr : b.nrow = d)
    (hbc : b.ncol = d) :
    (multiply_mkl junk a b).nrow = d ∧ (multiply_mkl junk a b).ncol = d ∧
    (multiply_mkl junk a b).WF ∧
    (∀ r c, r < d → c < d →
      (multiply_mkl junk a b).read r c = (multiply_naive junk' b a).read r c) ∧
    (multiply_mkl junk a b).operator_eq (multiply_naive junk' b a) false = true := by
  have hdd : d * d < SIZE_MOD := by
    have h := _ha.2
    have e1 : a.m_nrow = d := har
    have e2 : a.m_ncol = d := hac
    rw [e1, e2] at h
    exact h
  have hSa : Shape a d d := ⟨har, hac, by rw [_ha.1]; show a.nrow * a.ncol = d * d; rw [har, hac], hdd⟩
  have hSb : Shape b d d := ⟨hbr, hbc, by rw [_hb.1]; show b.nrow * b.ncol = d * d; rw [hbr, hbc], hdd⟩
  obtain ⟨m1, m2, m3, mcells⟩ := mkl_cells junk a b (by rw [har, hbc]; exact hdd)
  obtain ⟨⟨n1, n2, _⟩, ncells⟩ := naive_cells junk' b a (by rw [hbr, hac]; exact hdd)
  rw [har] at m1
  rw [hbc] at m2
  rw [har, hbc] at m3
  rw [hbr] at n1
  rw [hac] at n2
  have hcell : ∀ r c, r < d → c < d →
      (multiply_mkl junk a b).read r c = (multiply_naive junk' b a).read r c := by
    intro r c hr hc
    have e := mcells c r (by rw [har]; exact hc) (by rw [hbc]; exact hr)
    rw [hbc, hac] at e
    rw [ncells r c (by rw [hbr]; exact hr) (by rw [hac]; exact hc), hbc]
    have hSm : Shape (multiply_mkl junk a b) d d := ⟨m1, m2, m3, hdd⟩
    have e1 : (multiply_mkl junk a b).read r c =
        (multiply_mkl junk a b).m_buffer.getD (c * d + r) 0 := by
      unfold Matrix.read
      rw [index_eq hSm hr hc, Nat.add_comm]
    rw [e1, e]
    unfold dot
    apply Finset.sum_congr rfl
    intro p hp
    have hpd : p < d := Finset.mem_range.1 hp
    have ea : a.read p c = a.m_buffer.getD (c * d + p) 0 := by
      unfold Matrix.read
      rw [index_eq hSa hpd hc, Nat.add_comm]
    have eb : b.read r p = b.m_buffer.getD (p * d + r) 0 := by
      unfold Matrix.read
      rw [index_eq hSb hr hpd, Nat.add_comm]
    rw [ea, eb, mul_comm]
  refine ⟨m1, m2, ?_, hcell, ?_⟩
  · unfold Matrix.WF
    rw [m3, m1, m2]
    exact ⟨rfl, hdd⟩
  · rw [operator_eq_iff]
    refine ⟨m1.trans n1.symm, m2.trans n2.symm, ?_⟩
    intro i j hi hj
    rw [m1] at hi
    rw [m2] at hj
    exact hcell i j hi hj

/-- Witness for C17 at `a = [[1, 2], [3, 4]]` and `b = [[5, 6], [7, 8]]`. -/
theorem multiply_mkl_swaps_operands_witness :
    (multiply_mkl (fun _ => 7) ⟨2, 2, [1, 3, 2, 4]⟩ ⟨2, 2, [5, 7, 6, 8]⟩).operator_eq
      (multiply_naive (fun _ => 8) ⟨2, 2, [5, 7, 6, 8]⟩ ⟨2, 2, [1, 3, 2, 4]⟩) false = true :=
  (multiply_mkl_swaps_operands (fun _ => 7) (fun _ => 8) ⟨2, 2, [1, 3, 2, 4]⟩
    ⟨2, 2, [5, 7, 6, 8]⟩ 2 (by decide) (by decide) rfl rfl rfl rfl).2.2.2.2

/-- C14: for a compatible pair `mat1` (`m × k`), `mat2` (`k × n`) and a tile
size `t >= 1`, every element access made by `multiply_tile` is in bounds: the
run with checked accesses never stops at an access outside a matrix, and it
returns the matrix that `multiply_tile` returns. -/
theorem multiply_tile_accesses_in_bounds (junk : Nat → Int) (mat1 mat2 : Matrix)
    (t fuel : Nat) (_h1 : mat1.WF) (_h2 : mat2.WF) (hk : mat1.ncol = mat2.nrow)
    (ht : 1 ≤ t) (hf1 : mat1.nrow < fuel) (hf2 : mat2.ncol < fuel) :
    (∀ fuel' row col, multiply_tile_checked fuel' junk mat1 mat2 t ≠
      some (.error (.out_of_bounds row col))) ∧
    ∃ ret, multiply_tile_checked fuel junk mat1 mat2 t = some (.ok ret) ∧
      multiply_tile fuel junk mat1 mat2 t = some (.ok ret) := by
  constructor
  · intro fuel' row col hcon
    obtain ⟨o, _, e2⟩ := multiply_tile_checked_ok junk mat1 mat2 hk t fuel'
    rw [e2] at hcon
    cases o with
    | none => simp at hcon
    | some r => simp at hcon
  · obtain ⟨o, e1, e2⟩ := multiply_tile_checked_ok junk mat1 mat2 hk t fuel
    obtain ⟨r, hr⟩ := tile_loops_returns mat1 mat2 ht hf1 hf2
      (forUp 0 mat1.nrow (fun i ret =>
        forUp 0 mat2.ncol (fun j ret => ret.write i j 0) ret)
        (Matrix.new junk mat1.nrow mat2.ncol))
    have hret : multiply_tile fuel junk mat1 mat2 t = some (.ok r) := by
      unfold multiply_tile
      rw [if_neg (by simpa using hk)]
      dsimp only
      rw [hr]
    refine ⟨r, ?_, hret⟩
    rw [hret] at e1
    rw [e2]
    cases o with
    | none => simp at e1
    | some r' =>
      have e : r = r' := by simpa using e1
      rw [e]
      rfl

/-- Witness for C14: `[[1, 2]]` (`1 × 2`) times `[[3], [4]]` (`2 × 1`) with tile
size `1`. -/
theorem multiply_tile_accesses_in_bounds_witness :
    ∃ ret, multiply_tile_checked 2 (fun _ => 7) ⟨1, 2, [1, 2]⟩ ⟨2, 1, [3, 4]⟩ 1
        = some (.ok ret) ∧
      multiply_tile 2 (fun _ => 7) ⟨1, 2, [1, 2]⟩ ⟨2, 1, [3, 4]⟩ 1 = some (.ok ret) :=
  (multiply_tile_accesses_in_bounds (fun _ => 7) ⟨1, 2, [1, 2]⟩ ⟨2, 1, [3, 4]⟩ 1 2
    (by decide) (by decide) rfl (by decide) (by decide) (by decide)).2

/-- C11 (counterexample): the copy of the `1 × 1` matrix whose cell is NaN has
the same dimensions and the same cell, and `operator==` of the copy and the
original is false. -/
theorem copy_of_nan_not_equal :
    MatrixPtr.copy (fun _ => .num 0) [[.nan]] ⟨1, 1, some 0⟩ =
      ([[.nan], [.nan]], ⟨1, 1, some 1⟩) ∧
    MatrixPtr.read [[.nan], [.nan]] ⟨1, 1, some 1⟩ 0 0 =
      MatrixPtr.read [[.nan]] ⟨1, 1, some 0⟩ 0 0 ∧
    MatrixPtr.operator_eq [[.nan], [.nan]] ⟨1, 1, some 1⟩ ⟨1, 1, some 0⟩ false = false := by
  decide

/-- C11 (amended): the copy constructor, applied to a live matrix `M`, yields an
object `C` with the same `nrow` and `ncol` and the same value at every
in-bounds `(row, col)`, so `C == M` is true when no cell of `M` is NaN; `C`
owns an array of its own, and writing a value into a cell of `C` afterwards
changes that cell of `C` and leaves every cell of `M` unchanged. -/
theorem copy_constructor_spec (junk : Nat → Double) (h h' : Heap) (M C : MatrixPtr)
    (hM : M.Valid h) (hcopy : MatrixPtr.copy junk h M = (h', C)) :
    C.m_nrow = M.m_nrow ∧ C.m_ncol = M.m_ncol ∧ C.Valid h' ∧
    (∀ i j, i < M.m_nrow → j < M.m_ncol → C.read h' i j = M.read h i j) ∧
    ((∀ i j, i < M.m_nrow → j < M.m_ncol → M.read h i j ≠ .nan) →
      C.operator_eq h' M false = true) ∧
    M.deref h' = M.deref h ∧
    (∀ p, C.m_buffer = some p → M.m_buffer ≠ some p) ∧
    ∀ r c v, r < C.m_nrow → c < C.m_ncol →
      C.read (C.write h' r c v) r c = v ∧
      M.deref (C.write h' r c v) = M.deref h ∧
      ∀ i j, i < M.m_nrow → j < M.m_ncol → M.read (C.write h' r c v) i j = M.read h i j := by
  by_cases hz : M.m_nrow * M.m_ncol = 0
  · rw [copy_empty junk h M (by rw [hz]; rfl)] at hcopy
    have e1 : h = h' := congrArg Prod.fst hcopy
    have e2 : ({ m_nrow := M.m_nrow, m_ncol := M.m_ncol, m_buffer := none } : MatrixPtr) = C :=
      congrArg Prod.snd hcopy
    subst e1 e2
    have hno : ∀ i j, i < M.m_nrow → j < M.m_ncol → False := by
      intro i j hi hj
      rcases Nat.mul_eq_zero.1 hz with h0 | h0 <;> omega
    refine ⟨rfl, rfl, hz, ?_, ?_, rfl, ?_, ?_⟩
    · intro i j hi hj
      exact (hno i j hi hj).elim
    · intro _
      rw [operator_eq_heap_iff]
      refine ⟨rfl, rfl, ?_⟩
      intro i j hi hj
      exact (hno i j hi hj).elim
    · intro p hp
      exact absurd hp (by simp)
    · intro r c v hr hc
      exact (hno r c hr hc).elim
  · have hb : M.m_nrow * M.m_ncol < SIZE_MOD := by
      have hv := hM
      unfold MatrixPtr.Valid at hv
      cases hbuf : M.m_buffer with
      | none => rw [hbuf] at hv; exact absurd hv hz
      | some p => rw [hbuf] at hv; exact hv.2.2
    obtain ⟨hC, hext, hcells⟩ := copy_fresh junk h M hM hb hz
    rw [hcopy] at hC hext hcells
    simp only at hC hext hcells
    have hbuf : C.m_buffer = some h.length := by rw [hC]
    have hm : C.m_nrow = M.m_nrow := by rw [hC]
    have hn : C.m_ncol = M.m_ncol := by rw [hC]
    have hder : M.deref h' = M.deref h := deref_extends hext hM
    have hrd : ∀ i j, M.read h' i j = M.read h i j := by
      intro i j
      unfold MatrixPtr.read
      rw [hder]
    refine ⟨hm, hn, ?_, hcells, ?_, hder, ?_, ?_⟩
    · unfold MatrixPtr.Valid
      rw [hbuf]
      exact ⟨by have := hext.1; omega, by rw [hm, hn]; exact hext.2.2, by rw [hm, hn]; exact hb⟩
    · intro hnan
      rw [operator_eq_heap_iff]
      refine ⟨hm, hn, ?_⟩
      intro i j hi hj
      rw [hcells i j (hm ▸ hi) (hn ▸ hj), hrd i j]
      exact double_ne_self (hnan i j (hm ▸ hi) (hn ▸ hj))
    · intro p hp hMp
      rw [hbuf] at hp
      have hp' : h.length = p := by simpa using hp
      unfold MatrixPtr.Valid at hM
      rw [hMp] at hM
      omega
    · intro r c v hr hc
      rw [hm] at hr
      rw [hn] at hc
      have hd : M.deref (C.write h' r c v) = M.deref h := deref_write_other hext hbuf hM r c v
      refine ⟨?_, hd, ?_⟩
      · rw [read_write_heap hext hbuf hm hb hr hc hr hc v, if_pos ⟨rfl, rfl⟩]
      · intro i j _ _
        unfold MatrixPtr.read
        rw [hd]

/-- Witness for C11: the matrix `[[1, 2], [3, 4]]` at address `0` is copied to
address `1`; the copy compares equal, and writing `9` into cell `(0, 1)` of the
copy leaves the original as it was. -/
theorem copy_constructor_spec_witness :
    MatrixPtr.read [[.num 1, .num 3, .num 2, .num 4], [.num 1, .num 3, .num 2, .num 4]]
        ⟨2, 2, some 1⟩ 1 0 =
      MatrixPtr.read [[.num 1, .num 3, .num 2, .num 4]] ⟨2, 2, some 0⟩ 1 0 ∧
    MatrixPtr.read (MatrixPtr.write
        [[.num 1, .num 3, .num 2, .num 4], [.num 1, .num 3, .num 2, .num 4]]
        ⟨2, 2, some 1⟩ 0 1 (.num 9)) ⟨2, 2, some 1⟩ 0 1 = .num 9 ∧
    MatrixPtr.deref (MatrixPtr.write
        [[.num 1, .num 3, .num 2, .num 4], [.num 1, .num 3, .num 2, .num 4]]
        ⟨2, 2, some 1⟩ 0 1 (.num 9)) ⟨2, 2, some 0⟩ =
      MatrixPtr.deref [[.num 1, .num 3, .num 2, .num 4]] ⟨2, 2, some 0⟩ :=
  have h := copy_constructor_spec (fun _ => .nan) [[.num 1, .num 3, .num 2, .num 4]]
    [[.num 1, .num 3, .num 2, .num 4], [.num 1, .num 3, .num 2, .num 4]]
    ⟨2, 2, some 0⟩ ⟨2, 2, some 1⟩ (show _ ∧ _ ∧ _ from ⟨by decide, rfl, by decide⟩) rfl
  have hw := h.2.2.2.2.2.2.2 0 1 (.num 9) (by decide) (by decide)
  ⟨h.2.2.2.1 1 0 (by decide) (by decide), hw.1, hw.2.1⟩

/-- C12 (counterexample): a matrix whose cell is NaN compared with itself gives
true although `!=` finds the cell different from itself; and two distinct
objects with the same dimensions and the same (NaN) cell compare false. -/
theorem operator_eq_nan :
    (MatrixPtr.operator_eq [[.nan], [.nan]] ⟨1, 1, some 0⟩ ⟨1, 1, some 0⟩ true = true ∧
      Double.ne (MatrixPtr.read [[.nan], [.nan]] ⟨1, 1, some 0⟩ 0 0)
        (MatrixPtr.read [[.nan], [.nan]] ⟨1, 1, some 0⟩ 0 0) = true) ∧
    (MatrixPtr.operator_eq [[.nan], [.nan]] ⟨1, 1, some 0⟩ ⟨1, 1, some 1⟩ false = false ∧
      MatrixPtr.read [[.nan], [.nan]] ⟨1, 1, some 0⟩ 0 0 =
        MatrixPtr.read [[.nan], [.nan]] ⟨1, 1, some 1⟩ 0 0) := by
  decide

/-- C12 (amended): one and the same object compares equal to itself whatever it
holds; for two distinct objects `A == B` is true exactly when `nrow` and `ncol`
agree and `!=` finds no in-bounds pair `A(i, j)`, `B(i, j)` different (for cells
that are not NaN: when the cells are equal), and it is false whenever the
dimensions differ, whatever the buffers hold. -/
theorem operator_eq_spec (h : Heap) (A B : MatrixPtr) :
    A.operator_eq h A true = true ∧
    (A.operator_eq h B false = true ↔
      A.m_nrow = B.m_nrow ∧ A.m_ncol = B.m_ncol ∧
        ∀ i j, i < A.m_nrow → j < A.m_ncol → Double.ne (A.read h i j) (B.read h i j) = false) ∧
    (A.m_nrow ≠ B.m_nrow ∨ A.m_ncol ≠ B.m_ncol → A.operator_eq h B false = false) ∧
    ((∀ i j, i < A.m_nrow → j < A.m_ncol → A.read h i j ≠ .nan ∧ B.read h i j ≠ .nan) →
      (A.operator_eq h B false = true ↔
        A.m_nrow = B.m_nrow ∧ A.m_ncol = B.m_ncol ∧
          ∀ i j, i < A.m_nrow → j < A.m_ncol → A.read h i j = B.read h i j)) := by
  refine ⟨rfl, operator_eq_heap_iff h A B, ?_, ?_⟩
  · intro hd
    cases hval : A.operator_eq h B false with
    | false => rfl
    | true =>
      obtain ⟨h1, h2, _⟩ := (operator_eq_heap_iff h A B).1 hval
      rcases hd with hd | hd
      · exact absurd h1 hd
      · exact absurd h2 hd
  · intro hnan
    rw [operator_eq_heap_iff]
    constructor
    · intro ⟨h1, h2, hc⟩
      exact ⟨h1, h2, fun i j hi hj =>
        (double_ne_iff (hnan i j hi hj).1 (hnan i j hi hj).2).1 (hc i j hi hj)⟩
    · intro ⟨h1, h2, hc⟩
      exact ⟨h1, h2, fun i j hi hj =>
        (double_ne_iff (hnan i j hi hj).1 (hnan i j hi hj).2).2 (hc i j hi hj)⟩

/-- Witness for C12: two distinct objects `[[1, 2]]` at the addresses `0` and
`1` are equal, cell by cell without NaN; the `1 × 2` and the `2 × 1` object over
the same buffer contents are not; the matrix `[[1, 2]]` is equal to itself. -/
theorem operator_eq_spec_witness :
    MatrixPtr.operator_eq [[.num 1, .num 2], [.num 1, .num 2]]
      ⟨1, 2, some 0⟩ ⟨1, 2, some 1⟩ false = true ∧
    MatrixPtr.operator_eq [[.num 1, .num 2], [.num 1, .num 2]]
      ⟨1, 2, some 0⟩ ⟨2, 1, some 1⟩ false = false ∧
    MatrixPtr.operator_eq [[.num 1, .num 2]] ⟨1, 2, some 0⟩ ⟨1, 2, some 0⟩ true = true :=
  ⟨((operator_eq_spec [[.num 1, .num 2], [.num 1, .num 2]]
      ⟨1, 2, some 0⟩ ⟨1, 2, some 1⟩).2.2.2
      (by intro i j hi hj
          have hi0 : i = 0 := by simpa using hi
          subst hi0
          interval_cases j <;> decide)).2
      ⟨rfl, rfl, by
        intro i j hi hj
        have hi0 : i = 0 := by simpa using hi
        subst hi0
        interval_cases j <;> rfl⟩,
   (operator_eq_spec [[.num 1, .num 2], [.num 1, .num 2]]
      ⟨1, 2, some 0⟩ ⟨2, 1, some 1⟩).2.2.1 (Or.inl (by decide)),
   (operator_eq_spec [[.num 1, .num 2]] ⟨1, 2, some 0⟩ ⟨1, 2, some 0⟩).1⟩

end Hw3
